import Mathlib

/-!
# Verification of the photo-sync distributed catalog

A shallow embedding of the Rust sources `opaque_date.rs`, `local_storage.rs`
and `catalog.rs` of the `photo-sync-tst` repository, together with proofs
about the embedded definitions.

Modelling conventions:
* `u32` values are natural numbers; arithmetic that can overflow in Rust is
  performed modulo `4294967296` (release-mode wrapping semantics).
* Byte strings (`Vec<u8>`) are `List Nat`.
* A `redb` table is an association list sorted strictly ascending by its
  `u32` key; a table that has never been created is `Option.none`.
* SHA-256 is idealized as a collision-free (injective) digest: the inductive
  type `Checksum` has one constructor for a digest of a raw byte stream
  (feeding object ids to the hasher concatenates them, so the model hashes
  the concatenation) and one constructor for a digest of a stream of
  fixed-width child digests (concatenating fixed-width digests is in
  bijection with the list of digests).
* The `for` loops of the sync driver become structural recursion; the
  driver additionally returns a trace of the month-tier and day-tier
  operations it performed, which models the network traffic observable
  at the `RemotePeer` interface.
-/

namespace PhotoSync

/-- Byte strings (`Vec<u8>` in the source): object ids, peer labels. -/
abbrev Bytes := List Nat

/-! ## opaque_date.rs -/

/-- `ymd_interval_for_y`: day-key interval of a year, `u32` arithmetic. -/
def ymd_interval_for_y (year : Nat) : Nat × Nat :=
  ((year * 10000 + 101) % 4294967296, (year * 10000 + 1231) % 4294967296)

/-- `ymd_interval_for_ym`: day-key interval of a month, `u32` arithmetic. -/
def ymd_interval_for_ym (year_month : Nat) : Nat × Nat :=
  ((year_month * 100 + 1) % 4294967296, (year_month * 100 + 31) % 4294967296)

/-- `ym_range_for_y`: inclusive range of the month keys of a year. -/
def ym_range_for_y (year : Nat) : Nat × Nat :=
  ((year * 100 + 1) % 4294967296, (year * 100 + 12) % 4294967296)

/-- `ymd_range_for_ym`: inclusive range of the day keys of a month. -/
def ymd_range_for_ym (year_month : Nat) : Nat × Nat :=
  ((year_month * 100 + 1) % 4294967296, (year_month * 100 + 31) % 4294967296)

/-- `ymd_to_ym`: parent month key of a day key. -/
def ymd_to_ym (year_month_day : Nat) : Nat := year_month_day / 100

/-- `ym_to_y`: parent year key of a month key. -/
def ym_to_y (year_month : Nat) : Nat := year_month / 100

/-! ## Digests -/

/-- A digest is an opaque byte string (`pub type Checksum = Vec<u8>` in the
source). SHA-256 is idealized as collision-free: the model digest of an
input stream is an injective encoding of that stream. -/
abbrev Checksum := List Nat

/-- Idealized SHA-256 of a raw byte stream (the object-id bytes fed to the
hasher in order). Injective in the stream, modelling collision freeness. -/
def Checksum.ofBytes (b : Bytes) : Checksum := 0 :: b

/-- Idealized SHA-256 of a concatenation of fixed-width child digests.
Concatenating fixed-width digests is in bijection with the list of digests,
so the model digests an injective (length-prefixed) encoding of the list.
Injective in the list, modelling collision freeness. -/
def Checksum.ofSums (cs : List Checksum) : Checksum :=
  1 :: cs.flatMap (fun c => List.length c :: c)

theorem Checksum.ofBytes_inj {a b : Bytes} (h : Checksum.ofBytes a = Checksum.ofBytes b) :
    a = b := List.cons.inj h |>.2

theorem length_prefix_encode_inj : ∀ a b : List Checksum,
    a.flatMap (fun c => List.length c :: c) = b.flatMap (fun c => List.length c :: c) →
    a = b := by
  intro a
  induction a with
  | nil =>
    intro b h
    cases b with
    | nil => rfl
    | cons x bs => simp [List.flatMap_cons] at h
  | cons x as_ ih =>
    intro b h
    cases b with
    | nil => simp [List.flatMap_cons] at h
    | cons y bs =>
      simp only [List.flatMap_cons, List.cons_append, List.cons.injEq] at h
      obtain ⟨hlen, happ⟩ := h
      obtain ⟨hxy, htail⟩ := List.append_inj happ hlen
      rw [hxy, ih bs htail]

theorem Checksum.ofSums_inj {a b : List Checksum}
    (h : Checksum.ofSums a = Checksum.ofSums b) : a = b :=
  length_prefix_encode_inj a b (List.cons.inj h).2

/-! ## Sorted tables (the redb tables, keyed by `u32`) -/

/-- A redb table: an association list sorted strictly ascending by key. -/
abbrev Table (α : Type) := List (Nat × α)

/-- Point lookup (`table.get(k)`). -/
def Table.get? {α : Type} : Table α → Nat → Option α
  | [], _ => none
  | e :: t, k => if k = e.1 then some e.2 else Table.get? t k

/-- Ordered upsert (`table.insert(k, v)`): replaces the value at `k` or
inserts `(k, v)` at its sorted position. -/
def Table.insert {α : Type} : Table α → Nat → α → Table α
  | [], k, v => [(k, v)]
  | e :: t, k, v =>
    if k < e.1 then (k, v) :: e :: t
    else if k = e.1 then (k, v) :: t
    else e :: Table.insert t k v

/-- Inclusive range scan (`table.range(lo..=hi)`), ascending. -/
def Table.range {α : Type} (t : Table α) (lo hi : Nat) : Table α :=
  t.filter (fun e => decide (lo ≤ e.1 ∧ e.1 ≤ hi))

/-- Keys strictly ascending: the well-formedness of a redb table. -/
def Table.SortedKeys {α : Type} (t : Table α) : Prop :=
  List.Chain' (fun p q => p.1 < q.1) t

/-! ## local_storage.rs : data model -/

/-- The entry ordering used by `photos.sort()`: Rust derives lexicographic
order on `(Vec<u8>, Vec<Vec<u8>>)`. Strict lexicographic order on byte
strings. -/
def ltBytes : Bytes → Bytes → Bool
  | _, [] => false
  | [], _ :: _ => true
  | a :: as_, b :: bs => if a < b then true else if b < a then false else ltBytes as_ bs

/-- Strict lexicographic order on lists of byte strings (peer lists). -/
def ltPeers : List Bytes → List Bytes → Bool
  | _, [] => false
  | [], _ :: _ => true
  | a :: as_, b :: bs => if ltBytes a b then true else if ltBytes b a then false else ltPeers as_ bs

/-- Strict order on day entries `(ObjectId, Vec<PeerLabel>)`, lexicographic
on the pair as Rust `#[derive(Ord)]` produces. -/
def entryLt (a b : Bytes × List Bytes) : Bool :=
  if ltBytes a.1 b.1 then true else if ltBytes b.1 a.1 then false else ltPeers a.2 b.2

/-- The non-strict counterpart used by the stable sort. -/
def entryLe (a b : Bytes × List Bytes) : Prop := entryLt b a = false

instance : DecidableRel entryLe := fun a b =>
  inferInstanceAs (Decidable (entryLt b a = false))

/-- Model of `photos.sort()` (a stable sort by `entryLe`). -/
def sortPhotos (l : List (Bytes × List Bytes)) : List (Bytes × List Bytes) :=
  l.insertionSort entryLe

/-- One step of the merge loop of `add_photos_to_day`: find the first entry
with the incoming object id and extend its peer list with the peers not
already present, otherwise push the incoming entry at the end. -/
def merge_photo : List (Bytes × List Bytes) → Bytes × List Bytes → List (Bytes × List Bytes)
  | [], np => [np]
  | e :: rest, np =>
    if e.1 = np.1 then
      (e.1, e.2 ++ np.2.filter (fun p => decide (p ∉ e.2))) :: rest
    else
      e :: merge_photo rest np

/-- `calc_photos_checksum`: digest of the object ids of a day, fed to the
hasher in stored order (peer labels excluded). -/
def calc_photos_checksum (photos : List (Bytes × List Bytes)) : Checksum :=
  Checksum.ofBytes (photos.map (fun e => e.1)).flatten

/-- The four tables of `LocalStorage`; `none` models a table that has
never been created. -/
structure LocalStorage : Type where
  checksum_year : Option (Table Checksum)
  checksum_month : Option (Table Checksum)
  checksum_day : Option (Table Checksum)
  data_in_day : Option (Table (List (Bytes × List Bytes)))
deriving DecidableEq

/-- A freshly created storage: no table exists yet. -/
def emptyStorage : LocalStorage :=
  { checksum_year := none, checksum_month := none,
    checksum_day := none, data_in_day := none }

/-- The year checksum table as opened inside a write transaction
(creating it when absent). -/
def chkYearTable (s : LocalStorage) : Table Checksum := s.checksum_year.getD []

/-- The month checksum table, opened-or-created. -/
def chkMonthTable (s : LocalStorage) : Table Checksum := s.checksum_month.getD []

/-- The day checksum table, opened-or-created. -/
def chkDayTable (s : LocalStorage) : Table Checksum := s.checksum_day.getD []

/-- The day data table, opened-or-created. -/
def dataTable (s : LocalStorage) : Table (List (Bytes × List Bytes)) :=
  s.data_in_day.getD []

/-! ## local_storage.rs : operations -/

/-- `get_years_checksums`: full ascending scan of the year table; an absent
table yields the empty list. -/
def get_years_checksums (s : LocalStorage) : Table Checksum :=
  match s.checksum_year with
  | none => []
  | some t => t

/-- `get_months_checksum`: range scan of the month table over
`ym_range_for_y`; an absent table yields the empty list. -/
def get_months_checksum (s : LocalStorage) (y : Nat) : Table Checksum :=
  match s.checksum_month with
  | none => []
  | some t => Table.range t (ym_range_for_y y).1 (ym_range_for_y y).2

/-- `get_days_checksum`: range scan of the day table over
`ymd_range_for_ym`; an absent table yields the empty list. -/
def get_days_checksum (s : LocalStorage) (ym : Nat) : Table Checksum :=
  match s.checksum_day with
  | none => []
  | some t => Table.range t (ymd_range_for_ym ym).1 (ymd_range_for_ym ym).2

/-- `get_existing_days_in_range`: keys of the day checksum table inside the
inclusive interval; an absent table yields the empty list. -/
def get_existing_days_in_range (s : LocalStorage) (ymd_from ymd_to : Nat) : List Nat :=
  match s.checksum_day with
  | none => []
  | some t => (Table.range t ymd_from ymd_to).map (fun e => e.1)

/-- `get_photos`: point lookup in the data table; an absent table yields
`none`. -/
def get_photos (s : LocalStorage) (ymd : Nat) : Option (List (Bytes × List Bytes)) :=
  match s.data_in_day with
  | none => none
  | some t => Table.get? t ymd

/-- `update_day_checksum`: writes the new day digest and recomputes the
month and year digests from the current tables, inside the same
transaction. -/
def update_day_checksum (s : LocalStorage) (ymd : Nat) (day_checksum : Checksum) :
    LocalStorage :=
  let table_checksum_day := Table.insert (chkDayTable s) ymd day_checksum
  let ym := ymd_to_ym ymd
  let r1 := ymd_range_for_ym ym
  let month_checksum :=
    Checksum.ofSums ((Table.range table_checksum_day r1.1 r1.2).map (fun e => e.2))
  let table_checksum_month := Table.insert (chkMonthTable s) ym month_checksum
  let y := ym_to_y ym
  let r2 := ym_range_for_y y
  let year_checksum :=
    Checksum.ofSums ((Table.range table_checksum_month r2.1 r2.2).map (fun e => e.2))
  let table_checksum_year := Table.insert (chkYearTable s) y year_checksum
  { s with
    checksum_day := some table_checksum_day,
    checksum_month := some table_checksum_month,
    checksum_year := some table_checksum_year }

/-- `add_photos_to_day`: merge the incoming entries into the stored day
entry (union of peer lists per object id, append of new object ids), sort,
store, and cascade the digest recomputation. Returns the new storage and
the new day digest. -/
def add_photos_to_day (s : LocalStorage) (ymd : Nat)
    (new_photos : List (Bytes × List Bytes)) : LocalStorage × Checksum :=
  let table_days := dataTable s
  let photos0 := (Table.get? table_days ymd).getD []
  let photos := sortPhotos (new_photos.foldl merge_photo photos0)
  let table_days2 := Table.insert table_days ymd photos
  let new_checksum := calc_photos_checksum photos
  let s2 := update_day_checksum { s with data_in_day := some table_days2 } ymd new_checksum
  (s2, new_checksum)

/-- The storages reachable from a fresh database by `add_photos_to_day`
calls (day keys are `u32` values). -/
inductive Reachable : LocalStorage → Prop where
  | fresh : Reachable emptyStorage
  | step (s : LocalStorage) (ymd : Nat) (E : List (Bytes × List Bytes)) :
      Reachable s → ymd < 4294967296 → Reachable (add_photos_to_day s ymd E).1

/-! ## catalog.rs -/

/-- `DistStoreError`: the catalog error type. -/
inductive DistStoreError : Type where
  | SyncInProcess : DistStoreError
deriving DecidableEq, Repr

/-- `calc_diff`: linear merge walk over two key-sorted digest lists.
Returns `(missing_on_local, missing_on_remote, different)`. -/
def calc_diff : List (Nat × Checksum) → List (Nat × Checksum) →
    List Nat × List Nat × List Nat
  | [], remote => (remote.map (fun e => e.1), [], [])
  | l :: ls, [] => ([], (l :: ls).map (fun e => e.1), [])
  | l :: ls, r :: rs =>
    if l.1 < r.1 then
      let d := calc_diff ls (r :: rs)
      (d.1, l.1 :: d.2.1, d.2.2)
    else if r.1 < l.1 then
      let d := calc_diff (l :: ls) rs
      (r.1 :: d.1, d.2.1, d.2.2)
    else
      let d := calc_diff ls rs
      (d.1, d.2.1, if l.2 = r.2 then d.2.2 else l.1 :: d.2.2)
termination_by l r => l.length + r.length

/-- The remote-peer operations a sync performs, as observed at the
`RemotePeer` interface (instrumentation of the driver). -/
inductive SyncEvent : Type where
  | monthsQuery : Nat → SyncEvent
  | daysQuery : Nat → SyncEvent
  | existingDaysQuery : Nat → Nat → SyncEvent
  | dataQuery : Nat → SyncEvent
  | proposeCall : Nat → SyncEvent
deriving DecidableEq, Repr

/-- The day-transfer loop shared by `fill_gaps` and `fill_ymd_gaps`:
`get_data` on the source and, when a day entry exists, `propose` on the
destination. Returns the new destination state and the event trace. -/
def transfer_days (src : LocalStorage) : LocalStorage → List Nat →
    LocalStorage × List SyncEvent
  | dst, [] => (dst, [])
  | dst, ymd :: rest =>
    match get_photos src ymd with
    | some photos =>
      let r := transfer_days src (add_photos_to_day dst ymd photos).1 rest
      (r.1, SyncEvent.dataQuery ymd :: SyncEvent.proposeCall ymd :: r.2)
    | none =>
      let r := transfer_days src dst rest
      (r.1, SyncEvent.dataQuery ymd :: r.2)

/-- `fill_ymd_gaps`: transfer the given day partitions from `src` to
`dst`. -/
def fill_ymd_gaps (src dst : LocalStorage) (ymds : List Nat) :
    LocalStorage × List SyncEvent :=
  transfer_days src dst ymds

/-- `fill_gaps`: for each date, enumerate the existing days of `src` in
the date interval and transfer them to `dst`. -/
def fill_gaps (src : LocalStorage) : LocalStorage → List Nat →
    (Nat → Nat × Nat) → LocalStorage × List SyncEvent
  | dst, [], _ => (dst, [])
  | dst, d :: rest, date_to_interval =>
    let iv := date_to_interval d
    let days := get_existing_days_in_range src iv.1 iv.2
    let r1 := transfer_days src dst days
    let r2 := fill_gaps src r1.1 rest date_to_interval
    (r2.1, SyncEvent.existingDaysQuery iv.1 iv.2 :: r1.2 ++ r2.2)

/-- Day-tier reconciliation of one differing month: diff the day digests;
days missing on either side and days with differing digests are exchanged
(the differing ones in both directions). `ab.1` is the local node, `ab.2`
the peer. -/
def sync_month (ab : LocalStorage × LocalStorage) (ym : Nat) :
    (LocalStorage × LocalStorage) × List SyncEvent :=
  let d := calc_diff (get_days_checksum ab.1 ym) (get_days_checksum ab.2 ym)
  let missing_on_local := d.1 ++ d.2.2
  let missing_on_remote := d.2.1 ++ d.2.2
  let ra := fill_ymd_gaps ab.2 ab.1 missing_on_local
  let rb := fill_ymd_gaps ra.1 ab.2 missing_on_remote
  ((ra.1, rb.1), SyncEvent.daysQuery ym :: ra.2 ++ rb.2)

/-- The loop over the differing months of one year. -/
def sync_months : LocalStorage × LocalStorage → List Nat →
    (LocalStorage × LocalStorage) × List SyncEvent
  | ab, [] => (ab, [])
  | ab, ym :: rest =>
    let r := sync_month ab ym
    let rr := sync_months r.1 rest
    (rr.1, r.2 ++ rr.2)

/-- Month-tier reconciliation of one differing year: diff the month
digests, resolve the one-sided months over their day intervals, recurse
into the months differing on both sides. -/
def sync_year (ab : LocalStorage × LocalStorage) (y : Nat) :
    (LocalStorage × LocalStorage) × List SyncEvent :=
  let d := calc_diff (get_months_checksum ab.1 y) (get_months_checksum ab.2 y)
  let ra := fill_gaps ab.2 ab.1 d.1 ymd_interval_for_ym
  let rb := fill_gaps ra.1 ab.2 d.2.1 ymd_interval_for_ym
  let rm := sync_months (ra.1, rb.1) d.2.2
  (rm.1, SyncEvent.monthsQuery y :: ra.2 ++ rb.2 ++ rm.2)

/-- The loop over the differing years. -/
def sync_years : LocalStorage × LocalStorage → List Nat →
    (LocalStorage × LocalStorage) × List SyncEvent
  | ab, [] => (ab, [])
  | ab, y :: rest =>
    let r := sync_year ab y
    let rr := sync_years r.1 rest
    (rr.1, r.2 ++ rr.2)

/-- One full reconciliation round of `sync_with_peers` against a single
peer `ab.2` (the body of the peer loop): year-tier diff, one-sided years
over their day intervals, recursion into differing years. -/
def sync_with_peer (a b : LocalStorage) :
    (LocalStorage × LocalStorage) × List SyncEvent :=
  let d := calc_diff (get_years_checksums a) (get_years_checksums b)
  let ra := fill_gaps b a d.1 ymd_interval_for_y
  let rb := fill_gaps ra.1 b d.2.1 ymd_interval_for_y
  let ry := sync_years (ra.1, rb.1) d.2.2
  (ry.1, ra.2 ++ rb.2 ++ ry.2)

/-- `sync_with_peers` for a node whose roster holds the single peer `b`:
`try_lock` on the sync mutex fails fast when the lock is already held,
otherwise the reconciliation round runs. -/
def sync_with_peers (locked : Bool) (a b : LocalStorage) :
    Except DistStoreError ((LocalStorage × LocalStorage) × List SyncEvent) :=
  if locked then Except.error DistStoreError.SyncInProcess
  else Except.ok (sync_with_peer a b)

/-- The storage states after a call to `sync_with_peers`: an erroring call
leaves both storages untouched. -/
def sync_result (locked : Bool) (a b : LocalStorage) : LocalStorage × LocalStorage :=
  match sync_with_peers locked a b with
  | Except.error _ => (a, b)
  | Except.ok r => r.1

/-! ## Lemmas about the entry ordering -/

theorem ltBytes_irrefl : ∀ x : Bytes, ltBytes x x = false := by
  intro x
  induction x with
  | nil => rfl
  | cons a as_ ih => simp [ltBytes, ih]

theorem ltBytes_asymm : ∀ x y : Bytes, ltBytes x y = true → ltBytes y x = false := by
  intro x
  induction x with
  | nil =>
    intro y h
    cases y with
    | nil => simp [ltBytes] at h
    | cons b bs => rfl
  | cons a as_ ih =>
    intro y h
    cases y with
    | nil => simp [ltBytes] at h
    | cons b bs =>
      simp only [ltBytes] at h ⊢
      split_ifs at h ⊢ with h1 h2 h3 h4 <;> first
        | rfl
        | omega
        | simp_all
        | exact ih bs h

theorem ltBytes_conn : ∀ x y : Bytes, ltBytes x y = false → ltBytes y x = false → x = y := by
  intro x
  induction x with
  | nil =>
    intro y h1 h2
    cases y with
    | nil => rfl
    | cons b bs => simp [ltBytes] at h1
  | cons a as_ ih =>
    intro y h1 h2
    cases y with
    | nil => simp [ltBytes] at h2
    | cons b bs =>
      simp only [ltBytes] at h1 h2
      split_ifs at h1 h2 with hab hba <;> try omega
      rw [ih bs h1 h2]
      have : a = b := by omega
      rw [this]

theorem ltBytes_trans : ∀ x y z : Bytes,
    ltBytes x y = true → ltBytes y z = true → ltBytes x z = true := by
  intro x
  induction x with
  | nil =>
    intro y z h1 h2
    cases y with
    | nil => simp [ltBytes] at h1
    | cons b bs =>
      cases z with
      | nil => simp [ltBytes] at h2
      | cons c cs => rfl
  | cons a as_ ih =>
    intro y z h1 h2
    cases y with
    | nil => simp [ltBytes] at h1
    | cons b bs =>
      cases z with
      | nil => simp [ltBytes] at h2
      | cons c cs =>
        simp only [ltBytes] at h1 h2 ⊢
        split_ifs at h1 h2 ⊢ with h3 h4 h5 h6 h7 h8 <;> first
          | rfl
          | omega
          | (exact ih bs cs h1 h2)

theorem ltPeers_irrefl : ∀ x : List Bytes, ltPeers x x = false := by
  intro x
  induction x with
  | nil => rfl
  | cons a as_ ih => simp [ltPeers, ltBytes_irrefl, ih]

theorem ltPeers_asymm : ∀ x y : List Bytes, ltPeers x y = true → ltPeers y x = false := by
  intro x
  induction x with
  | nil =>
    intro y h
    cases y with
    | nil => simp [ltPeers] at h
    | cons b bs => rfl
  | cons a as_ ih =>
    intro y h
    cases y with
    | nil => simp [ltPeers] at h
    | cons b bs =>
      simp only [ltPeers] at h ⊢
      by_cases hab : ltBytes a b = true
      · simp [hab, ltBytes_asymm a b hab] at h ⊢
      · by_cases hba : ltBytes b a = true
        · simp [hab, hba] at h
        · simp only [hab, hba, if_false] at h ⊢
          simp only [Bool.not_eq_true] at hab hba
          simp [hab, hba]
          exact ih bs h

theorem ltPeers_conn : ∀ x y : List Bytes,
    ltPeers x y = false → ltPeers y x = false → x = y := by
  intro x
  induction x with
  | nil =>
    intro y h1 h2
    cases y with
    | nil => rfl
    | cons b bs => simp [ltPeers] at h1
  | cons a as_ ih =>
    intro y h1 h2
    cases y with
    | nil => simp [ltPeers] at h2
    | cons b bs =>
      simp only [ltPeers] at h1 h2
      by_cases hab : ltBytes a b = true
      · simp [hab] at h1
      · by_cases hba : ltBytes b a = true
        · simp [hba] at h2
        · simp only [Bool.not_eq_true] at hab hba
          simp only [hab, hba, if_false] at h1 h2
          rw [ih bs h1 h2, ltBytes_conn a b hab hba]

theorem ltPeers_trans : ∀ x y z : List Bytes,
    ltPeers x y = true → ltPeers y z = true → ltPeers x z = true := by
  intro x
  induction x with
  | nil =>
    intro y z h1 h2
    cases y with
    | nil => simp [ltPeers] at h1
    | cons b bs =>
      cases z with
      | nil => simp [ltPeers] at h2
      | cons c cs => rfl
  | cons a as_ ih =>
    intro y z h1 h2
    cases y with
    | nil => simp [ltPeers] at h1
    | cons b bs =>
      cases z with
      | nil => simp [ltPeers] at h2
      | cons c cs =>
        simp only [ltPeers] at h1 h2 ⊢
        by_cases hab : ltBytes a b = true <;> by_cases hbc : ltBytes b c = true
        · simp [ltBytes_trans a b c hab hbc]
        · simp only [hab, if_true] at h1
          by_cases hcb : ltBytes c b = true
          · simp [hbc, hcb] at h2
          · simp only [Bool.not_eq_true] at hbc hcb
            have : b = c := ltBytes_conn b c hbc hcb
            subst this
            simp [hab]
        · simp only [Bool.not_eq_true] at hab
          simp only [hab, if_false] at h1
          by_cases hba : ltBytes b a = true
          · simp [hba] at h1
          · simp only [Bool.not_eq_true] at hba
            have : a = b := ltBytes_conn a b hab hba
            subst this
            simp [hbc]
        · simp only [Bool.not_eq_true] at hab hbc
          simp only [hab, hbc, if_false] at h1 h2
          by_cases hba : ltBytes b a = true
          · simp [hba] at h1
          · by_cases hcb : ltBytes c b = true
            · simp [hcb] at h2
            · simp only [Bool.not_eq_true] at hba hcb
              simp only [hba, hcb, if_false] at h1 h2
              have hac : a = b := ltBytes_conn a b hab hba
              subst hac
              simp only [hbc, hcb, if_false]
              exact ih bs cs h1 h2

theorem entryLt_irrefl (e : Bytes × List Bytes) : entryLt e e = false := by
  simp [entryLt, ltBytes_irrefl, ltPeers_irrefl]

theorem entryLt_asymm (a b : Bytes × List Bytes) :
    entryLt a b = true → entryLt b a = false := by
  intro h
  simp only [entryLt] at h ⊢
  by_cases h1 : ltBytes a.1 b.1 = true
  · simp [h1, ltBytes_asymm _ _ h1]
  · by_cases h2 : ltBytes b.1 a.1 = true
    · simp [h1, h2] at h
    · simp only [Bool.not_eq_true] at h1 h2
      simp only [h1, h2, if_false] at h ⊢
      exact ltPeers_asymm _ _ h

theorem entryLt_conn (a b : Bytes × List Bytes) :
    entryLt a b = false → entryLt b a = false → a = b := by
  intro h1 h2
  simp only [entryLt] at h1 h2
  by_cases hab : ltBytes a.1 b.1 = true
  · simp [hab] at h1
  · by_cases hba : ltBytes b.1 a.1 = true
    · simp [hba] at h2
    · simp only [Bool.not_eq_true] at hab hba
      simp only [hab, hba, if_false] at h1 h2
      have e1 : a.1 = b.1 := ltBytes_conn _ _ hab hba
      have e2 : a.2 = b.2 := ltPeers_conn _ _ h1 h2
      exact Prod.ext e1 e2

theorem entryLt_trans (a b c : Bytes × List Bytes) :
    entryLt a b = true → entryLt b c = true → entryLt a c = true := by
  intro h1 h2
  simp only [entryLt] at h1 h2 ⊢
  by_cases hab : ltBytes a.1 b.1 = true <;> by_cases hbc : ltBytes b.1 c.1 = true
  · simp [ltBytes_trans _ _ _ hab hbc]
  · simp only [Bool.not_eq_true] at hbc
    simp only [hbc, if_false] at h2
    by_cases hcb : ltBytes c.1 b.1 = true
    · simp [hcb] at h2
    · simp only [Bool.not_eq_true] at hcb
      have : b.1 = c.1 := ltBytes_conn _ _ hbc hcb
      rw [← this]
      simp [hab]
  · simp only [Bool.not_eq_true] at hab
    simp only [hab, if_false] at h1
    by_cases hba : ltBytes b.1 a.1 = true
    · simp [hba] at h1
    · simp only [Bool.not_eq_true] at hba
      have : a.1 = b.1 := ltBytes_conn _ _ hab hba
      rw [this]
      simp [hbc]
  · simp only [Bool.not_eq_true] at hab hbc
    simp only [hab, hbc, if_false] at h1 h2
    by_cases hba : ltBytes b.1 a.1 = true
    · simp [hba] at h1
    · by_cases hcb : ltBytes c.1 b.1 = true
      · simp [hcb] at h2
      · simp only [Bool.not_eq_true] at hba hcb
        simp only [hba, hcb, if_false] at h1 h2
        have e1 : a.1 = b.1 := ltBytes_conn _ _ hab hba
        have e2 : b.1 = c.1 := ltBytes_conn _ _ hbc hcb
        rw [e1, e2]
        simp only [ltBytes_irrefl, if_false]
        exact ltPeers_trans _ _ _ h1 h2

instance : IsTotal (Bytes × List Bytes) entryLe where
  total a b := by
    unfold entryLe
    by_cases h : entryLt b a = true
    · right
      exact entryLt_asymm _ _ h
    · left
      simpa using h

instance : IsTrans (Bytes × List Bytes) entryLe where
  trans a b c h1 h2 := by
    unfold entryLe at h1 h2 ⊢
    by_cases h : entryLt c a = true
    · exfalso
      by_cases hbc : entryLt b c = true
      · rw [entryLt_trans b c a hbc h] at h1
        exact Bool.noConfusion h1
      · simp only [Bool.not_eq_true] at hbc
        have hb : b = c := entryLt_conn b c hbc h2
        rw [hb, h] at h1
        exact Bool.noConfusion h1
    · simpa using h

/-- Strictly ascending by object id, the shape of a stored day entry. -/
def PhotosWF (l : List (Bytes × List Bytes)) : Prop :=
  List.Chain' (fun e f => ltBytes e.1 f.1 = true) l

instance : IsTrans (Bytes × List Bytes) (fun e f => ltBytes e.1 f.1 = true) where
  trans a b c h1 h2 := ltBytes_trans _ _ _ h1 h2

theorem photosWF_entryLe {l : List (Bytes × List Bytes)} (h : PhotosWF l) :
    List.Sorted entryLe l := by
  unfold PhotosWF at h
  rw [List.chain'_iff_pairwise] at h
  refine h.imp ?_
  intro a b hab
  unfold entryLe entryLt
  rw [ltBytes_asymm _ _ hab]
  simp [hab]

theorem sortPhotos_of_wf {l : List (Bytes × List Bytes)} (h : PhotosWF l) :
    sortPhotos l = l :=
  (photosWF_entryLe h).insertionSort_eq

theorem sortPhotos_perm (l : List (Bytes × List Bytes)) : List.Perm (sortPhotos l) l :=
  List.perm_insertionSort entryLe l

theorem sortPhotos_sorted (l : List (Bytes × List Bytes)) :
    List.Sorted entryLe (sortPhotos l) :=
  List.sorted_insertionSort entryLe l

/-- A sorted entry list with pairwise-distinct object ids is strictly
ascending by object id. -/
theorem photosWF_of_sorted_nodup {l : List (Bytes × List Bytes)}
    (hs : List.Sorted entryLe l) (hn : (l.map (fun e => e.1)).Nodup) : PhotosWF l := by
  unfold PhotosWF
  rw [List.chain'_iff_pairwise]
  have hn' : List.Pairwise (fun e f : Bytes × List Bytes => e.1 ≠ f.1) l :=
    List.pairwise_map.mp hn
  refine (hs.and hn').imp ?_
  intro a b hab
  rcases hab with ⟨hle, hne⟩
  unfold entryLe at hle
  simp only [entryLt] at hle
  by_cases h1 : ltBytes b.1 a.1 = true
  · simp [h1] at hle
  · by_cases h2 : ltBytes a.1 b.1 = true
    · exact h2
    · simp only [Bool.not_eq_true] at h1 h2
      exact absurd (ltBytes_conn _ _ h2 h1) hne

/-! ## Lemmas about sorted tables -/

instance {α : Type} : IsTrans (Nat × α) (fun p q => p.1 < q.1) where
  trans _ _ _ h1 h2 := lt_trans h1 h2

theorem Table.sorted_head_lt {α : Type} {e : Nat × α} {t : Table α}
    (h : Table.SortedKeys (e :: t)) : ∀ p ∈ t, e.1 < p.1 := by
  rw [Table.SortedKeys, List.chain'_iff_pairwise] at h
  exact fun p hp => (List.pairwise_cons.mp h).1 p hp

theorem Table.sorted_tail {α : Type} {e : Nat × α} {t : Table α}
    (h : Table.SortedKeys (e :: t)) : Table.SortedKeys t :=
  List.Chain'.tail h

theorem Table.get?_insert_self {α : Type} : ∀ (t : Table α) (k : Nat) (v : α),
    Table.get? (Table.insert t k v) k = some v := by
  intro t k v
  induction t with
  | nil => simp [Table.insert, Table.get?]
  | cons e t ih =>
    simp only [Table.insert]
    split_ifs with h1 h2
    · simp [Table.get?]
    · simp [Table.get?]
    · have hne : k ≠ e.1 := by omega
      simp [Table.get?, hne, ih]

theorem Table.get?_insert_ne {α : Type} : ∀ (t : Table α) (k k2 : Nat) (v : α), k2 ≠ k →
    Table.get? (Table.insert t k v) k2 = Table.get? t k2 := by
  intro t k k2 v hne
  induction t with
  | nil => simp [Table.insert, Table.get?, hne]
  | cons e t ih =>
    simp only [Table.insert]
    split_ifs with h1 h2
    · simp [Table.get?, hne]
    · have h3 : k2 ≠ e.1 := h2 ▸ hne
      simp [Table.get?, hne, h3]
    · by_cases h3 : k2 = e.1
      · simp [Table.get?, h3]
      · simp [Table.get?, h3, ih]

theorem Table.insert_head_lt {α : Type} (t : Table α) (k : Nat) (v : α) (x : Nat)
    (hk : x < k) (ht : ∀ p ∈ t.head?, x < p.1) :
    ∀ p ∈ (Table.insert t k v).head?, x < p.1 := by
  cases t with
  | nil =>
    intro p hp
    simp [Table.insert] at hp
    rw [← hp]
    exact hk
  | cons f t2 =>
    simp only [Table.insert]
    split_ifs with h1 h2
    · intro p hp
      simp at hp
      rw [← hp]
      exact hk
    · intro p hp
      simp at hp
      rw [← hp]
      exact hk
    · exact fun p hp => ht p hp

theorem Table.sortedKeys_insert {α : Type} : ∀ (t : Table α), Table.SortedKeys t →
    ∀ (k : Nat) (v : α), Table.SortedKeys (Table.insert t k v) := by
  intro t
  induction t with
  | nil =>
    intro _ k v
    simp [Table.insert, Table.SortedKeys]
  | cons e t ih =>
    intro hs k v
    simp only [Table.insert]
    split_ifs with h1 h2
    · exact List.Chain'.cons h1 hs
    · rw [Table.SortedKeys, List.chain'_cons']
      constructor
      · intro h hh
        have := (List.chain'_cons'.mp hs).1 h hh
        omega
      · exact Table.sorted_tail hs
    · rw [Table.SortedKeys, List.chain'_cons']
      constructor
      · exact Table.insert_head_lt t k v e.1 (by omega) (List.chain'_cons'.mp hs).1
      · exact ih (Table.sorted_tail hs) k v

theorem Table.get?_isSome_iff {α : Type} : ∀ (t : Table α) (k : Nat),
    (Table.get? t k).isSome = true ↔ k ∈ t.map (fun e => e.1) := by
  intro t k
  induction t with
  | nil => simp [Table.get?]
  | cons e t ih =>
    by_cases h : k = e.1
    · simp [Table.get?, h]
    · simp [Table.get?, h, ih]

theorem Table.get?_eq_none_iff {α : Type} (t : Table α) (k : Nat) :
    Table.get? t k = none ↔ k ∉ t.map (fun e => e.1) := by
  rw [← Table.get?_isSome_iff]
  cases Table.get? t k <;> simp

theorem Table.mem_of_get? {α : Type} : ∀ (t : Table α) (k : Nat) (v : α),
    Table.get? t k = some v → (k, v) ∈ t := by
  intro t k v h
  induction t with
  | nil => simp [Table.get?] at h
  | cons e t ih =>
    by_cases h1 : k = e.1
    · simp only [Table.get?, h1, if_pos] at h
      have hv : e.2 = v := Option.some.inj h
      have hkv : (k, v) = e := by rw [h1, ← hv]
      rw [hkv]
      exact List.mem_cons_self e t
    · simp only [Table.get?, h1, if_neg, if_false] at h
      exact List.mem_cons_of_mem _ (ih h)

theorem Table.get?_of_mem {α : Type} : ∀ (t : Table α), Table.SortedKeys t →
    ∀ (k : Nat) (v : α), (k, v) ∈ t → Table.get? t k = some v := by
  intro t
  induction t with
  | nil => simp
  | cons e t ih =>
    intro hs k v hm
    cases hm with
    | head => simp [Table.get?]
    | tail _ hm2 =>
      have hlt : e.1 < k := Table.sorted_head_lt hs _ hm2
      have hne : k ≠ e.1 := by omega
      simp only [Table.get?, hne, if_false, if_neg]
      exact ih (Table.sorted_tail hs) k v hm2

theorem Table.get?_eq_none_of_head_lt {α : Type} {t : Table α} {k : Nat}
    (hs : Table.SortedKeys t) (h : ∀ p ∈ t.head?, k < p.1) :
    Table.get? t k = none := by
  cases t with
  | nil => rfl
  | cons e t =>
    have hk : k < e.1 := h e rfl
    rw [Table.get?_eq_none_iff]
    intro hmem
    simp only [List.map_cons, List.mem_cons, List.mem_map] at hmem
    rcases hmem with h1 | ⟨p, hp, hpk⟩
    · omega
    · have := Table.sorted_head_lt hs p hp
      omega

theorem Table.head_lt_of_sorted_cons {α : Type} {e : Nat × α} {t : Table α}
    (hs : Table.SortedKeys (e :: t)) : ∀ p ∈ t.head?, e.1 < p.1 := by
  intro p hp
  cases t with
  | nil => simp at hp
  | cons g t3 =>
    simp only [List.head?_cons, Option.mem_def, Option.some.injEq] at hp
    subst hp
    exact Table.sorted_head_lt hs g (List.mem_cons_self g t3)

theorem Table.sorted_ext {α : Type} : ∀ (t u : Table α), Table.SortedKeys t →
    Table.SortedKeys u → (∀ k, Table.get? t k = Table.get? u k) → t = u := by
  intro t
  induction t with
  | nil =>
    intro u _ hu h
    cases u with
    | nil => rfl
    | cons f u2 =>
      have := h f.1
      simp [Table.get?] at this
  | cons e t ih =>
    intro u hs hu h
    cases u with
    | nil =>
      have := h e.1
      simp [Table.get?] at this
    | cons f u2 =>
      have hget_e : Table.get? (e :: t) e.1 = some e.2 := by simp [Table.get?]
      have hget_f : Table.get? (f :: u2) f.1 = some f.2 := by simp [Table.get?]
      have hef : e.1 = f.1 := by
        by_contra hne
        rcases Nat.lt_or_ge e.1 f.1 with hlt | hge
        · have h1 := h e.1
          rw [hget_e] at h1
          have h3 : Table.get? (f :: u2) e.1 = none := by
            apply Table.get?_eq_none_of_head_lt hu
            intro p hp
            simp only [List.head?_cons, Option.mem_def, Option.some.injEq] at hp
            subst hp
            exact hlt
          rw [h3] at h1
          cases h1
        · have hlt : f.1 < e.1 := by omega
          have h1 := h f.1
          rw [hget_f] at h1
          have h3 : Table.get? (e :: t) f.1 = none := by
            apply Table.get?_eq_none_of_head_lt hs
            intro p hp
            simp only [List.head?_cons, Option.mem_def, Option.some.injEq] at hp
            subst hp
            exact hlt
          rw [h3] at h1
          cases h1
      have hev : e.2 = f.2 := by
        have h1 := h e.1
        rw [hget_e] at h1
        have h2 : Table.get? (f :: u2) e.1 = some f.2 := by
          rw [hef]
          exact hget_f
        rw [h2] at h1
        exact Option.some.inj h1
      have htail : t = u2 := by
        apply ih u2 (Table.sorted_tail hs) (Table.sorted_tail hu)
        intro k
        by_cases hk : k = e.1
        · subst hk
          rw [Table.get?_eq_none_of_head_lt (Table.sorted_tail hs)
              (Table.head_lt_of_sorted_cons hs),
            Table.get?_eq_none_of_head_lt (Table.sorted_tail hu) ?_]
          intro p hp
          have := Table.head_lt_of_sorted_cons hu p hp
          omega
        · have h1 := h k
          have hk2 : k ≠ f.1 := hef ▸ hk
          simp only [Table.get?, hk, hk2, if_neg, if_false] at h1
          exact h1
      have hef2 : e = f := Prod.ext hef hev
      rw [hef2, htail]

theorem Table.mem_range {α : Type} {t : Table α} {lo hi : Nat} {e : Nat × α} :
    e ∈ Table.range t lo hi ↔ e ∈ t ∧ lo ≤ e.1 ∧ e.1 ≤ hi := by
  simp [Table.range, List.mem_filter]

theorem Table.sortedKeys_range {α : Type} {t : Table α} (h : Table.SortedKeys t)
    (lo hi : Nat) : Table.SortedKeys (Table.range t lo hi) :=
  List.Chain'.sublist h (List.filter_sublist t)

theorem Table.get?_range_in {α : Type} : ∀ (t : Table α) (lo hi k : Nat), lo ≤ k → k ≤ hi →
    Table.get? (Table.range t lo hi) k = Table.get? t k := by
  intro t lo hi k h1 h2
  induction t with
  | nil => simp [Table.range, Table.get?]
  | cons e t ih =>
    by_cases hk : k = e.1
    · have : lo ≤ e.1 ∧ e.1 ≤ hi := by omega
      simp [Table.range, List.filter, this, Table.get?, hk]
    · by_cases hb : lo ≤ e.1 ∧ e.1 ≤ hi
      · simp only [Table.range, List.filter_cons, decide_eq_true_eq, hb, if_pos, if_true]
        simp only [Table.get?, hk, if_false, if_neg]
        exact ih
      · simp only [Table.range, List.filter_cons, decide_eq_true_eq, hb, if_neg, if_false]
        simp only [Table.get?, hk, if_false, if_neg]
        exact ih

theorem Table.get?_range_out {α : Type} : ∀ (t : Table α) (lo hi k : Nat), k < lo ∨ hi < k →
    Table.get? (Table.range t lo hi) k = none := by
  intro t lo hi k h
  rw [Table.get?_eq_none_iff]
  intro hm
  simp only [List.mem_map] at hm
  obtain ⟨p, hp, hpk⟩ := hm
  have := Table.mem_range.mp hp
  omega

theorem Table.range_insert_out {α : Type} : ∀ (t : Table α) (k : Nat) (v : α) (lo hi : Nat),
    k < lo ∨ hi < k → Table.range (Table.insert t k v) lo hi = Table.range t lo hi := by
  intro t k v lo hi h
  have hdrop : ¬ (lo ≤ k ∧ k ≤ hi) := by omega
  induction t with
  | nil => simp [Table.insert, Table.range, List.filter, hdrop]
  | cons e t ih =>
    simp only [Table.insert]
    split_ifs with h1 h2
    · simp only [Table.range, List.filter_cons, decide_eq_true_eq, hdrop, if_neg, if_false]
    · have hdrop2 : ¬ (lo ≤ e.1 ∧ e.1 ≤ hi) := by omega
      simp only [Table.range, List.filter_cons, decide_eq_true_eq, hdrop, hdrop2, if_neg,
        if_false]
    · simp only [Table.range, List.filter_cons, decide_eq_true_eq]
      split_ifs with h3
      · rw [← Table.range, ← Table.range, ih]
      · rw [← Table.range, ← Table.range, ih]

theorem Table.insert_cons_of_lt {α : Type} {t : Table α} {k : Nat} {v : α}
    (h : ∀ p ∈ t, k < p.1) : Table.insert t k v = (k, v) :: t := by
  cases t with
  | nil => rfl
  | cons e t2 =>
    have := h e (List.mem_cons_self e t2)
    simp only [Table.insert, this, if_pos]

theorem Table.range_insert_in {α : Type} : ∀ (t : Table α), Table.SortedKeys t →
    ∀ (k : Nat) (v : α) (lo hi : Nat), lo ≤ k → k ≤ hi →
    Table.range (Table.insert t k v) lo hi = Table.insert (Table.range t lo hi) k v := by
  intro t
  induction t with
  | nil =>
    intro _ k v lo hi h1 h2
    have : lo ≤ k ∧ k ≤ hi := by omega
    simp [Table.insert, Table.range, List.filter, this]
  | cons e t ih =>
    intro hs k v lo hi h1 h2
    have hin : lo ≤ k ∧ k ≤ hi := by omega
    simp only [Table.insert]
    split_ifs with hk1 hk2
    · -- k < e.1 : inserted in front
      have hlt : ∀ p ∈ Table.range (e :: t) lo hi, k < p.1 := by
        intro p hp
        have hm := Table.mem_range.mp hp
        rcases List.mem_cons.mp hm.1 with hpe | hpt
        · rw [hpe]
          omega
        · have := Table.sorted_head_lt hs p hpt
          omega
      rw [show Table.range ((k, v) :: e :: t) lo hi = (k, v) :: Table.range (e :: t) lo hi from
        List.filter_cons_of_pos (by simpa using hin), Table.insert_cons_of_lt hlt]
    · -- k = e.1 : replaced head
      rw [show Table.range ((k, v) :: t) lo hi = (k, v) :: Table.range t lo hi from
        List.filter_cons_of_pos (by simpa using hin)]
      rw [show Table.range (e :: t) lo hi = e :: Table.range t lo hi from
        List.filter_cons_of_pos (by simp only [decide_eq_true_eq]; omega)]
      simp only [Table.insert]
      rw [if_neg (by omega), if_pos hk2]
    · -- e.1 < k : recurse
      by_cases hbe : lo ≤ e.1 ∧ e.1 ≤ hi
      · rw [show Table.range (e :: Table.insert t k v) lo hi
            = e :: Table.range (Table.insert t k v) lo hi from
          List.filter_cons_of_pos (by simpa using hbe)]
        rw [show Table.range (e :: t) lo hi = e :: Table.range t lo hi from
          List.filter_cons_of_pos (by simpa using hbe)]
        rw [ih (Table.sorted_tail hs) k v lo hi h1 h2]
        simp only [Table.insert]
        rw [if_neg (by omega), if_neg (by omega)]
      · rw [show Table.range (e :: Table.insert t k v) lo hi
            = Table.range (Table.insert t k v) lo hi from
          List.filter_cons_of_neg (by simpa using hbe)]
        rw [show Table.range (e :: t) lo hi = Table.range t lo hi from
          List.filter_cons_of_neg (by simpa using hbe)]
        exact ih (Table.sorted_tail hs) k v lo hi h1 h2

theorem Table.insert_cons_self {α : Type} (e : Nat × α) (t : Table α) (v : α) :
    Table.insert (e :: t) e.1 v = (e.1, v) :: t := by
  simp [Table.insert]

theorem Table.insert_eq_self {α : Type} : ∀ (t : Table α), Table.SortedKeys t →
    ∀ (k : Nat) (v : α), Table.get? t k = some v → Table.insert t k v = t := by
  intro t
  induction t with
  | nil =>
    intro _ k v h
    simp [Table.get?] at h
  | cons e t ih =>
    intro hs k v h
    by_cases hk : k = e.1
    · subst hk
      have hv : e.2 = v := by simpa [Table.get?] using h
      rw [Table.insert_cons_self, ← hv]
    · simp only [Table.get?, hk, if_neg, if_false] at h
      have hgt : e.1 < k := by
        by_contra hle
        have hlt : k < e.1 := by omega
        rw [Table.get?_eq_none_of_head_lt (Table.sorted_tail hs) ?_] at h
        · cases h
        · intro p hp
          have := Table.head_lt_of_sorted_cons hs p hp
          omega
      simp only [Table.insert]
      rw [if_neg (by omega), if_neg (by omega)]
      rw [ih (Table.sorted_tail hs) k v h]

theorem Table.map_fst_insert_mem {α : Type} : ∀ (t : Table α), Table.SortedKeys t →
    ∀ (k : Nat) (v w : α), Table.get? t k = some w →
    (Table.insert t k v).map (fun e => e.1) = t.map (fun e => e.1) := by
  intro t
  induction t with
  | nil =>
    intro _ k v w h
    simp [Table.get?] at h
  | cons e t ih =>
    intro hs k v w h
    by_cases hk : k = e.1
    · subst hk
      rw [Table.insert_cons_self]
      simp
    · simp only [Table.get?, hk, if_neg, if_false] at h
      have hgt : e.1 < k := by
        by_contra hle
        have hlt : k < e.1 := by omega
        rw [Table.get?_eq_none_of_head_lt (Table.sorted_tail hs) ?_] at h
        · cases h
        · intro p hp
          have := Table.head_lt_of_sorted_cons hs p hp
          omega
      simp only [Table.insert]
      rw [if_neg (by omega), if_neg (by omega)]
      simp only [List.map_cons]
      rw [ih (Table.sorted_tail hs) k v w h]

theorem pair_list_ext {α β : Type} : ∀ (l1 l2 : List (α × β)),
    l1.map Prod.fst = l2.map Prod.fst → l1.map Prod.snd = l2.map Prod.snd → l1 = l2 := by
  intro l1
  induction l1 with
  | nil =>
    intro l2 h1 _
    cases l2 with
    | nil => rfl
    | cons f l3 => simp at h1
  | cons e l1 ih =>
    intro l2 h1 h2
    cases l2 with
    | nil => simp at h1
    | cons f l3 =>
      simp only [List.map_cons, List.cons.injEq] at h1 h2
      rw [ih l3 h1.2 h2.2, Prod.ext h1.1 h2.1]

theorem Table.mem_fst_insert {α : Type} : ∀ (t : Table α) (k : Nat) (v : α) (x : Nat),
    x ∈ (Table.insert t k v).map (fun e => e.1) → x = k ∨ x ∈ t.map (fun e => e.1) := by
  intro t k v x h
  induction t with
  | nil =>
    simp [Table.insert] at h
    exact Or.inl h
  | cons e t ih =>
    simp only [Table.insert] at h
    split_ifs at h with h1 h2
    · simp only [List.map_cons, List.mem_cons] at h ⊢
      tauto
    · simp only [List.map_cons, List.mem_cons] at h ⊢
      tauto
    · simp only [List.map_cons, List.mem_cons] at h ⊢
      rcases h with h | h
      · tauto
      · rcases ih h with h3 | h3 <;> tauto

/-! ## Arithmetic helpers: stripping the `u32` wrap on small keys -/

theorem ymd_range_for_ym_fst {ym : Nat} (h : ym ≤ 42949672) :
    (ymd_range_for_ym ym).1 = ym * 100 + 1 := by
  unfold ymd_range_for_ym
  exact Nat.mod_eq_of_lt (by omega)

theorem ymd_range_for_ym_snd {ym : Nat} (h : ym ≤ 42949672) :
    (ymd_range_for_ym ym).2 = ym * 100 + 31 := by
  unfold ymd_range_for_ym
  exact Nat.mod_eq_of_lt (by omega)

theorem ym_range_for_y_fst {y : Nat} (h : y ≤ 42949672) :
    (ym_range_for_y y).1 = y * 100 + 1 := by
  unfold ym_range_for_y
  exact Nat.mod_eq_of_lt (by omega)

theorem ym_range_for_y_snd {y : Nat} (h : y ≤ 42949672) :
    (ym_range_for_y y).2 = y * 100 + 12 := by
  unfold ym_range_for_y
  exact Nat.mod_eq_of_lt (by omega)

theorem ymd_interval_for_y_fst {y : Nat} (h : y ≤ 429496) :
    (ymd_interval_for_y y).1 = y * 10000 + 101 := by
  unfold ymd_interval_for_y
  exact Nat.mod_eq_of_lt (by omega)

theorem ymd_interval_for_y_snd {y : Nat} (h : y ≤ 429496) :
    (ymd_interval_for_y y).2 = y * 10000 + 1231 := by
  unfold ymd_interval_for_y
  exact Nat.mod_eq_of_lt (by omega)

theorem ymd_interval_for_ym_fst {ym : Nat} (h : ym ≤ 42949672) :
    (ymd_interval_for_ym ym).1 = ym * 100 + 1 := by
  unfold ymd_interval_for_ym
  exact Nat.mod_eq_of_lt (by omega)

theorem ymd_interval_for_ym_snd {ym : Nat} (h : ym ≤ 42949672) :
    (ymd_interval_for_ym ym).2 = ym * 100 + 31 := by
  unfold ymd_interval_for_ym
  exact Nat.mod_eq_of_lt (by omega)

/-! ## Lemmas about the merge loop -/

theorem merge_photo_fst_not_mem {np : Bytes × List Bytes} :
    ∀ {l : List (Bytes × List Bytes)}, np.1 ∉ l.map (fun e => e.1) →
    merge_photo l np = l ++ [np] := by
  intro l
  induction l with
  | nil => intro _; rfl
  | cons e rest ih =>
    intro h
    simp only [List.map_cons, List.mem_cons] at h
    push_neg at h
    have hne : e.1 ≠ np.1 := fun hh => h.1 hh.symm
    simp only [merge_photo, hne, if_neg, if_false]
    rw [ih h.2]
    rfl

theorem merge_photo_fst_mem {np : Bytes × List Bytes} :
    ∀ {l : List (Bytes × List Bytes)}, np.1 ∈ l.map (fun e => e.1) →
    (merge_photo l np).map (fun e => e.1) = l.map (fun e => e.1) := by
  intro l
  induction l with
  | nil => intro h; cases h
  | cons e rest ih =>
    intro h
    by_cases he : e.1 = np.1
    · simp [merge_photo, he]
    · simp only [List.map_cons, List.mem_cons] at h
      rcases h with h | h
      · exact absurd h.symm he
      · simp only [merge_photo, he, if_neg, if_false, List.map_cons]
        rw [ih h]

theorem merge_photo_fst_sub {np : Bytes × List Bytes} {l : List (Bytes × List Bytes)} :
    ∀ x ∈ (merge_photo l np).map (fun e => e.1), x = np.1 ∨ x ∈ l.map (fun e => e.1) := by
  intro x hx
  by_cases h : np.1 ∈ l.map (fun e => e.1)
  · rw [merge_photo_fst_mem h] at hx
    exact Or.inr hx
  · rw [merge_photo_fst_not_mem h] at hx
    simp only [List.map_append, List.mem_append] at hx
    rcases hx with hx | hx
    · exact Or.inr hx
    · simp at hx
      exact Or.inl hx

theorem merge_photo_fst_nodup {np : Bytes × List Bytes} {l : List (Bytes × List Bytes)}
    (h : (l.map (fun e => e.1)).Nodup) :
    ((merge_photo l np).map (fun e => e.1)).Nodup := by
  by_cases hm : np.1 ∈ l.map (fun e => e.1)
  · rw [merge_photo_fst_mem hm]
    exact h
  · rw [merge_photo_fst_not_mem hm]
    simp only [List.map_append, List.map_cons, List.map_nil]
    rw [List.nodup_append]
    refine ⟨h, List.nodup_singleton _, ?_⟩
    intro x hx
    simp only [List.mem_singleton]
    intro hc
    rw [hc] at hx
    exact hm hx

theorem foldl_merge_fst_nodup {E : List (Bytes × List Bytes)} :
    ∀ {l : List (Bytes × List Bytes)}, (l.map (fun e => e.1)).Nodup →
    ((List.foldl merge_photo l E).map (fun e => e.1)).Nodup := by
  induction E with
  | nil => intro l h; exact h
  | cons e E ih =>
    intro l h
    exact ih (merge_photo_fst_nodup h)

/-- `HasSup l o S`: some entry of `l` carries object id `o` with a peer
list containing all of `S`. -/
def HasSup (l : List (Bytes × List Bytes)) (o : Bytes) (S : List Bytes) : Prop :=
  ∃ ps, (o, ps) ∈ l ∧ ∀ p ∈ S, p ∈ ps

theorem merge_photo_hasSup_self (l : List (Bytes × List Bytes))
    (np : Bytes × List Bytes) : HasSup (merge_photo l np) np.1 np.2 := by
  induction l with
  | nil =>
    exact ⟨np.2, by simp [merge_photo], fun p hp => hp⟩
  | cons e rest ih =>
    by_cases he : e.1 = np.1
    · refine ⟨e.2 ++ np.2.filter (fun p => decide (p ∉ e.2)), ?_, ?_⟩
      · simp [merge_photo, he]
      · intro p hp
        by_cases hpe : p ∈ e.2
        · simp [hpe]
        · simp only [List.mem_append, List.mem_filter]
          right
          exact ⟨hp, by simpa using hpe⟩
    · obtain ⟨ps, hmem, hsub⟩ := ih
      refine ⟨ps, ?_, hsub⟩
      simp only [merge_photo, he, if_neg, if_false]
      exact List.mem_cons_of_mem _ hmem

theorem merge_photo_hasSup_mono {l : List (Bytes × List Bytes)} {o : Bytes}
    {S : List Bytes} (h : HasSup l o S) (np : Bytes × List Bytes) :
    HasSup (merge_photo l np) o S := by
  induction l with
  | nil =>
    obtain ⟨ps, hm, _⟩ := h
    cases hm
  | cons e rest ih =>
    obtain ⟨ps, hm, hsub⟩ := h
    rcases List.mem_cons.mp hm with hme | hm2
    · have ho : o = e.1 := congrArg Prod.fst hme
      have hps : ps = e.2 := congrArg Prod.snd hme
      by_cases he : e.1 = np.1
      · refine ⟨e.2 ++ np.2.filter (fun p => decide (p ∉ e.2)), ?_, ?_⟩
        · simp only [merge_photo, he, if_pos]
          rw [ho, he]
          exact List.mem_cons_self _ _
        · intro p hp
          have hpe : p ∈ e.2 := hps ▸ hsub p hp
          simp [hpe]
      · refine ⟨ps, ?_, hsub⟩
        simp only [merge_photo, he, if_neg, if_false]
        rw [hme]
        exact List.mem_cons_self _ _
    · by_cases he : e.1 = np.1
      · refine ⟨ps, ?_, hsub⟩
        simp only [merge_photo, he, if_pos]
        exact List.mem_cons_of_mem _ hm2
      · obtain ⟨qs, hq, hqsub⟩ := ih ⟨ps, hm2, hsub⟩
        refine ⟨qs, ?_, hqsub⟩
        simp only [merge_photo, he, if_neg, if_false]
        exact List.mem_cons_of_mem _ hq

theorem foldl_merge_hasSup_mono {E : List (Bytes × List Bytes)} :
    ∀ {l : List (Bytes × List Bytes)} {o : Bytes} {S : List Bytes}, HasSup l o S →
    HasSup (List.foldl merge_photo l E) o S := by
  induction E with
  | nil => intro l o S h; exact h
  | cons f E ih =>
    intro l o S h
    exact ih (merge_photo_hasSup_mono h f)

theorem foldl_merge_hasSup {E : List (Bytes × List Bytes)} :
    ∀ {l : List (Bytes × List Bytes)} {e : Bytes × List Bytes}, e ∈ E →
    HasSup (List.foldl merge_photo l E) e.1 e.2 := by
  induction E with
  | nil => intro l e h; cases h
  | cons f E ih =>
    intro l e h
    rcases List.mem_cons.mp h with he | h2
    · rw [he]
      simp only [List.foldl_cons]
      exact foldl_merge_hasSup_mono (merge_photo_hasSup_self l f)
    · exact ih h2

theorem merge_photo_eq_self {l : List (Bytes × List Bytes)} {np : Bytes × List Bytes}
    {ps : List Bytes} (hm : (np.1, ps) ∈ l) (hn : (l.map (fun e => e.1)).Nodup)
    (hsub : ∀ p ∈ np.2, p ∈ ps) : merge_photo l np = l := by
  induction l with
  | nil => cases hm
  | cons f rest ih =>
    by_cases hf : f.1 = np.1
    · have hps : ps = f.2 := by
        rcases List.mem_cons.mp hm with hme | hm2
        · exact congrArg Prod.snd hme
        · exfalso
          have h1 : np.1 ∈ rest.map (fun e => e.1) :=
            List.mem_map.mpr ⟨(np.1, ps), hm2, rfl⟩
          simp only [List.map_cons, List.nodup_cons] at hn
          exact hn.1 (hf ▸ h1)
      have hfil : np.2.filter (fun p => decide (p ∉ f.2)) = [] := by
        rw [List.filter_eq_nil_iff]
        intro p hp
        have : p ∈ f.2 := hps ▸ hsub p hp
        simp [this]
      simp only [merge_photo, hf, if_pos, hfil, List.append_nil]
      rw [← hf]
    · have hm2 : (np.1, ps) ∈ rest := by
        rcases List.mem_cons.mp hm with hme | hm2
        · exact absurd (congrArg Prod.fst hme).symm hf
        · exact hm2
      simp only [List.map_cons, List.nodup_cons] at hn
      simp only [merge_photo, hf, if_neg, if_false]
      rw [ih hm2 hn.2]

theorem foldl_merge_eq_self {E l : List (Bytes × List Bytes)}
    (hn : (l.map (fun e => e.1)).Nodup)
    (h : ∀ e ∈ E, ∃ ps, (e.1, ps) ∈ l ∧ ∀ p ∈ e.2, p ∈ ps) :
    List.foldl merge_photo l E = l := by
  induction E with
  | nil => rfl
  | cons e E ih =>
    obtain ⟨ps, hm, hsub⟩ := h e (List.mem_cons_self e E)
    simp only [List.foldl_cons]
    rw [merge_photo_eq_self hm hn hsub]
    exact ih (fun f hf => h f (List.mem_cons_of_mem e hf))

theorem foldl_merge_append : ∀ (E l : List (Bytes × List Bytes)),
    (E.map (fun e => e.1)).Nodup →
    (∀ x ∈ E.map (fun e => e.1), x ∉ l.map (fun e => e.1)) →
    List.foldl merge_photo l E = l ++ E := by
  intro E
  induction E with
  | nil => intro l _ _; simp
  | cons e E ih =>
    intro l hn hd
    simp only [List.foldl_cons]
    rw [merge_photo_fst_not_mem (hd e.1 (by simp))]
    rw [ih (l ++ [e]) (by simp only [List.map_cons, List.nodup_cons] at hn; exact hn.2) ?_]
    · simp
    · intro x hx
      simp only [List.map_append, List.mem_append, List.map_cons, List.map_nil,
        List.mem_singleton]
      push_neg
      constructor
      · exact hd x (by simp only [List.map_cons, List.mem_cons]; exact Or.inr hx)
      · simp only [List.map_cons, List.nodup_cons] at hn
        intro hc
        rw [hc] at hx
        exact hn.1 hx

theorem photosWF_nodup_fst {l : List (Bytes × List Bytes)} (h : PhotosWF l) :
    (l.map (fun e => e.1)).Nodup := by
  unfold PhotosWF at h
  rw [List.chain'_iff_pairwise] at h
  have h2 : List.Pairwise (fun a b : Bytes => ltBytes a b = true) (l.map (fun e => e.1)) :=
    List.pairwise_map.mpr h
  exact List.Pairwise.imp
    (fun hab hc => by rw [hc, ltBytes_irrefl] at hab; cases hab) h2

theorem mem_sortPhotos {l : List (Bytes × List Bytes)} {e : Bytes × List Bytes} :
    e ∈ sortPhotos l ↔ e ∈ l :=
  (sortPhotos_perm l).mem_iff

theorem photosWF_merged {l : List (Bytes × List Bytes)} (h : PhotosWF l)
    (E : List (Bytes × List Bytes)) :
    PhotosWF (sortPhotos (List.foldl merge_photo l E)) := by
  apply photosWF_of_sorted_nodup (sortPhotos_sorted _)
  have h1 : ((List.foldl merge_photo l E).map (fun e => e.1)).Nodup :=
    foldl_merge_fst_nodup (photosWF_nodup_fst h)
  exact (List.Perm.nodup_iff
    ((sortPhotos_perm (List.foldl merge_photo l E)).map (fun e => e.1))).mpr h1

/-! ## Unfolding equations for `add_photos_to_day` -/

/-- The merged, sorted day entry that `add_photos_to_day s ymd E` stores. -/
def mergedDay (s : LocalStorage) (ymd : Nat) (E : List (Bytes × List Bytes)) :
    List (Bytes × List Bytes) :=
  sortPhotos (E.foldl merge_photo ((Table.get? (dataTable s) ymd).getD []))

/-- The day checksum table after `add_photos_to_day s ymd E`. -/
def newDayTable (s : LocalStorage) (ymd : Nat) (E : List (Bytes × List Bytes)) :
    Table Checksum :=
  Table.insert (chkDayTable s) ymd (calc_photos_checksum (mergedDay s ymd E))

/-- The month digest written by `add_photos_to_day s ymd E`. -/
def newMonthVal (s : LocalStorage) (ymd : Nat) (E : List (Bytes × List Bytes)) : Checksum :=
  Checksum.ofSums ((Table.range (newDayTable s ymd E) (ymd_range_for_ym (ymd_to_ym ymd)).1
    (ymd_range_for_ym (ymd_to_ym ymd)).2).map (fun e => e.2))

/-- The month checksum table after `add_photos_to_day s ymd E`. -/
def newMonthTable (s : LocalStorage) (ymd : Nat) (E : List (Bytes × List Bytes)) :
    Table Checksum :=
  Table.insert (chkMonthTable s) (ymd_to_ym ymd) (newMonthVal s ymd E)

/-- The year digest written by `add_photos_to_day s ymd E`. -/
def newYearVal (s : LocalStorage) (ymd : Nat) (E : List (Bytes × List Bytes)) : Checksum :=
  Checksum.ofSums ((Table.range (newMonthTable s ymd E)
    (ym_range_for_y (ym_to_y (ymd_to_ym ymd))).1
    (ym_range_for_y (ym_to_y (ymd_to_ym ymd))).2).map (fun e => e.2))

/-- The year checksum table after `add_photos_to_day s ymd E`. -/
def newYearTable (s : LocalStorage) (ymd : Nat) (E : List (Bytes × List Bytes)) :
    Table Checksum :=
  Table.insert (chkYearTable s) (ym_to_y (ymd_to_ym ymd)) (newYearVal s ymd E)

theorem add_data_eq (s : LocalStorage) (ymd : Nat) (E : List (Bytes × List Bytes)) :
    dataTable (add_photos_to_day s ymd E).1
      = Table.insert (dataTable s) ymd (mergedDay s ymd E) := rfl

theorem add_snd_eq (s : LocalStorage) (ymd : Nat) (E : List (Bytes × List Bytes)) :
    (add_photos_to_day s ymd E).2 = calc_photos_checksum (mergedDay s ymd E) := rfl

theorem add_chkDay_eq (s : LocalStorage) (ymd : Nat) (E : List (Bytes × List Bytes)) :
    chkDayTable (add_photos_to_day s ymd E).1 = newDayTable s ymd E := rfl

theorem add_chkMonth_eq (s : LocalStorage) (ymd : Nat) (E : List (Bytes × List Bytes)) :
    chkMonthTable (add_photos_to_day s ymd E).1 = newMonthTable s ymd E := rfl

theorem add_chkYear_eq (s : LocalStorage) (ymd : Nat) (E : List (Bytes × List Bytes)) :
    chkYearTable (add_photos_to_day s ymd E).1 = newYearTable s ymd E := rfl

theorem get_photos_eq (s : LocalStorage) (ymd : Nat) :
    get_photos s ymd = Table.get? (dataTable s) ymd := by
  unfold get_photos dataTable
  cases s.data_in_day <;> rfl

theorem get_years_eq (s : LocalStorage) :
    get_years_checksums s = chkYearTable s := by
  unfold get_years_checksums chkYearTable
  cases s.checksum_year <;> rfl

theorem get_months_eq (s : LocalStorage) (y : Nat) :
    get_months_checksum s y
      = Table.range (chkMonthTable s) (ym_range_for_y y).1 (ym_range_for_y y).2 := by
  unfold get_months_checksum chkMonthTable
  cases s.checksum_month <;> rfl

theorem get_days_eq (s : LocalStorage) (ym : Nat) :
    get_days_checksum s ym
      = Table.range (chkDayTable s) (ymd_range_for_ym ym).1 (ymd_range_for_ym ym).2 := by
  unfold get_days_checksum chkDayTable
  cases s.checksum_day <;> rfl

theorem get_existing_eq (s : LocalStorage) (lo hi : Nat) :
    get_existing_days_in_range s lo hi
      = (Table.range (chkDayTable s) lo hi).map (fun e => e.1) := by
  unfold get_existing_days_in_range chkDayTable
  cases s.checksum_day <;> rfl

theorem ymd_parent_div (d : Nat) : ym_to_y (ymd_to_ym d) = d / 10000 := by
  unfold ym_to_y ymd_to_ym
  rw [Nat.div_div_eq_div_mul]

/-! ## The storage invariant -/

/-- The well-formedness invariant of a storage: all four tables sorted,
day keys below `2^32`, the checksum tables keyed exactly by the (parents
of) data days, each digest equal to the digest of the current content of
the tier below (the invariants I1 to I5 of the specification), and each
stored day entry strictly ascending by object id. -/
structure Inv (s : LocalStorage) : Prop where
  data_sorted : Table.SortedKeys (dataTable s)
  day_sorted : Table.SortedKeys (chkDayTable s)
  month_sorted : Table.SortedKeys (chkMonthTable s)
  year_sorted : Table.SortedKeys (chkYearTable s)
  keys_lt : ∀ k ∈ (dataTable s).map (fun e => e.1), k < 4294967296
  day_keys : ∀ k, (Table.get? (chkDayTable s) k).isSome
      = (Table.get? (dataTable s) k).isSome
  month_keys : ∀ k, (Table.get? (chkMonthTable s) k).isSome = true ↔
      ∃ d, (Table.get? (dataTable s) d).isSome = true ∧ d / 100 = k
  year_keys : ∀ k, (Table.get? (chkYearTable s) k).isSome = true ↔
      ∃ d, (Table.get? (dataTable s) d).isSome = true ∧ d / 10000 = k
  day_val : ∀ d L, Table.get? (dataTable s) d = some L →
      Table.get? (chkDayTable s) d = some (calc_photos_checksum L)
  month_val : ∀ k c, Table.get? (chkMonthTable s) k = some c →
      c = Checksum.ofSums ((Table.range (chkDayTable s) (ymd_range_for_ym k).1
        (ymd_range_for_ym k).2).map (fun e => e.2))
  year_val : ∀ k c, Table.get? (chkYearTable s) k = some c →
      c = Checksum.ofSums ((Table.range (chkMonthTable s) (ym_range_for_y k).1
        (ym_range_for_y k).2).map (fun e => e.2))
  photos_wf : ∀ d L, Table.get? (dataTable s) d = some L → PhotosWF L

theorem inv_empty : Inv emptyStorage := by
  constructor <;> simp [emptyStorage, dataTable, chkDayTable, chkMonthTable, chkYearTable,
    Table.SortedKeys, Table.get?]

theorem inv_data_key_lt {s : LocalStorage} (hs : Inv s) {d : Nat}
    (h : (Table.get? (dataTable s) d).isSome = true) : d < 4294967296 :=
  hs.keys_lt d ((Table.get?_isSome_iff _ _).mp h)

theorem inv_add {s : LocalStorage} (hs : Inv s) (ymd : Nat)
    (E : List (Bytes × List Bytes)) (hb : ymd < 4294967296) :
    Inv (add_photos_to_day s ymd E).1 := by
  have hym : ymd_to_ym ymd = ymd / 100 := rfl
  have hyy : ym_to_y (ymd_to_ym ymd) = ymd / 10000 := ymd_parent_div ymd
  constructor
  case data_sorted =>
    rw [add_data_eq]
    exact Table.sortedKeys_insert _ hs.data_sorted _ _
  case day_sorted =>
    rw [add_chkDay_eq]
    exact Table.sortedKeys_insert _ hs.day_sorted _ _
  case month_sorted =>
    rw [add_chkMonth_eq]
    exact Table.sortedKeys_insert _ hs.month_sorted _ _
  case year_sorted =>
    rw [add_chkYear_eq]
    exact Table.sortedKeys_insert _ hs.year_sorted _ _
  case keys_lt =>
    rw [add_data_eq]
    intro k hk
    rcases Table.mem_fst_insert _ _ _ _ hk with h | h
    · omega
    · exact hs.keys_lt k h
  case day_keys =>
    rw [add_chkDay_eq, add_data_eq]
    intro k
    unfold newDayTable
    by_cases hk : k = ymd
    · subst hk
      rw [Table.get?_insert_self, Table.get?_insert_self]
      rfl
    · rw [Table.get?_insert_ne _ _ _ _ hk, Table.get?_insert_ne _ _ _ _ hk]
      exact hs.day_keys k
  case month_keys =>
    rw [add_chkMonth_eq, add_data_eq]
    intro k
    unfold newMonthTable
    by_cases hk : k = ymd_to_ym ymd
    · subst hk
      rw [Table.get?_insert_self]
      simp only [Option.isSome_some, true_iff]
      exact ⟨ymd, by rw [Table.get?_insert_self]; rfl, hym.symm⟩
    · rw [Table.get?_insert_ne _ _ _ _ hk]
      rw [hs.month_keys k]
      constructor
      · rintro ⟨d, hd, hdk⟩
        by_cases hde : d = ymd
        · subst hde
          exact ⟨d, by rw [Table.get?_insert_self]; rfl, hdk⟩
        · exact ⟨d, by rw [Table.get?_insert_ne _ _ _ _ hde]; exact hd, hdk⟩
      · rintro ⟨d, hd, hdk⟩
        by_cases hde : d = ymd
        · exfalso
          apply hk
          rw [hym, ← hdk, hde]
        · rw [Table.get?_insert_ne _ _ _ _ hde] at hd
          exact ⟨d, hd, hdk⟩
  case year_keys =>
    rw [add_chkYear_eq, add_data_eq]
    intro k
    unfold newYearTable
    by_cases hk : k = ym_to_y (ymd_to_ym ymd)
    · subst hk
      rw [Table.get?_insert_self]
      simp only [Option.isSome_some, true_iff]
      exact ⟨ymd, by rw [Table.get?_insert_self]; rfl, hyy.symm⟩
    · rw [Table.get?_insert_ne _ _ _ _ hk]
      rw [hs.year_keys k]
      constructor
      · rintro ⟨d, hd, hdk⟩
        by_cases hde : d = ymd
        · subst hde
          exact ⟨d, by rw [Table.get?_insert_self]; rfl, hdk⟩
        · exact ⟨d, by rw [Table.get?_insert_ne _ _ _ _ hde]; exact hd, hdk⟩
      · rintro ⟨d, hd, hdk⟩
        by_cases hde : d = ymd
        · exfalso
          apply hk
          rw [hyy, ← hdk, hde]
        · rw [Table.get?_insert_ne _ _ _ _ hde] at hd
          exact ⟨d, hd, hdk⟩
  case day_val =>
    rw [add_chkDay_eq, add_data_eq]
    intro d L h
    unfold newDayTable
    by_cases hd : d = ymd
    · subst hd
      rw [Table.get?_insert_self] at h
      rw [Table.get?_insert_self]
      rw [Option.some.inj h]
    · rw [Table.get?_insert_ne _ _ _ _ hd] at h
      rw [Table.get?_insert_ne _ _ _ _ hd]
      exact hs.day_val d L h
  case month_val =>
    rw [add_chkMonth_eq, add_chkDay_eq]
    intro k c h
    unfold newMonthTable at h
    by_cases hk : k = ymd_to_ym ymd
    · subst hk
      rw [Table.get?_insert_self] at h
      rw [← Option.some.inj h]
      rfl
    · rw [Table.get?_insert_ne _ _ _ _ hk] at h
      have hold := hs.month_val k c h
      have hkmem : ∃ d, (Table.get? (dataTable s) d).isSome = true ∧ d / 100 = k :=
        (hs.month_keys k).mp (by rw [h]; rfl)
      obtain ⟨d0, hd0, hd0k⟩ := hkmem
      have hd0lt : d0 < 4294967296 := inv_data_key_lt hs hd0
      have hkb : k ≤ 42949672 := by omega
      rw [hold]
      unfold newDayTable
      rw [ymd_range_for_ym_fst hkb, ymd_range_for_ym_snd hkb]
      rw [Table.range_insert_out]
      rw [hym] at hk
      omega
  case year_val =>
    rw [add_chkYear_eq, add_chkMonth_eq]
    intro k c h
    unfold newYearTable at h
    by_cases hk : k = ym_to_y (ymd_to_ym ymd)
    · subst hk
      rw [Table.get?_insert_self] at h
      rw [← Option.some.inj h]
      rfl
    · rw [Table.get?_insert_ne _ _ _ _ hk] at h
      have hold := hs.year_val k c h
      have hkmem : ∃ d, (Table.get? (dataTable s) d).isSome = true ∧ d / 10000 = k :=
        (hs.year_keys k).mp (by rw [h]; rfl)
      obtain ⟨d0, hd0, hd0k⟩ := hkmem
      have hd0lt : d0 < 4294967296 := inv_data_key_lt hs hd0
      have hkb : k ≤ 42949672 := by omega
      rw [hold]
      unfold newMonthTable
      rw [ym_range_for_y_fst hkb, ym_range_for_y_snd hkb]
      rw [Table.range_insert_out]
      rw [hyy] at hk
      rw [hym]
      omega
  case photos_wf =>
    rw [add_data_eq]
    intro d L h
    by_cases hd : d = ymd
    · subst hd
      rw [Table.get?_insert_self] at h
      rw [← Option.some.inj h]
      have hbase : PhotosWF ((Table.get? (dataTable s) d).getD []) := by
        cases hD : Table.get? (dataTable s) d with
        | none => simp [PhotosWF]
        | some L0 => simpa using hs.photos_wf d L0 hD
      exact photosWF_merged hbase E
    · rw [Table.get?_insert_ne _ _ _ _ hd] at h
      exact hs.photos_wf d L h

theorem inv_of_reachable {s : LocalStorage} (h : Reachable s) : Inv s := by
  induction h with
  | fresh => exact inv_empty
  | step s ymd E _ hb ih => exact inv_add ih ymd E hb

/-! ## Lemmas about calc_diff -/

theorem calc_diff_nil_left (r : List (Nat × Checksum)) :
    calc_diff [] r = (r.map (fun e => e.1), [], []) := by
  simp [calc_diff]

theorem calc_diff_nil_right (l : List (Nat × Checksum)) :
    calc_diff l [] = ([], l.map (fun e => e.1), []) := by
  cases l with
  | nil => simp [calc_diff]
  | cons e t => simp [calc_diff]

theorem calc_diff_cons_lt {l r : Nat × Checksum} {ls rs : List (Nat × Checksum)}
    (h : l.1 < r.1) : calc_diff (l :: ls) (r :: rs)
      = ((calc_diff ls (r :: rs)).1, l.1 :: (calc_diff ls (r :: rs)).2.1,
        (calc_diff ls (r :: rs)).2.2) := by
  rw [calc_diff]
  simp [h]

theorem calc_diff_cons_gt {l r : Nat × Checksum} {ls rs : List (Nat × Checksum)}
    (h : r.1 < l.1) : calc_diff (l :: ls) (r :: rs)
      = (r.1 :: (calc_diff (l :: ls) rs).1, (calc_diff (l :: ls) rs).2.1,
        (calc_diff (l :: ls) rs).2.2) := by
  rw [calc_diff]
  have h2 : ¬ l.1 < r.1 := by omega
  simp [h, h2]

theorem calc_diff_cons_eq {l r : Nat × Checksum} {ls rs : List (Nat × Checksum)}
    (h : l.1 = r.1) : calc_diff (l :: ls) (r :: rs)
      = ((calc_diff ls rs).1, (calc_diff ls rs).2.1,
        if l.2 = r.2 then (calc_diff ls rs).2.2 else l.1 :: (calc_diff ls rs).2.2) := by
  rw [calc_diff]
  have h1 : ¬ l.1 < r.1 := by omega
  have h2 : ¬ r.1 < l.1 := by omega
  simp [h1, h2]

theorem calc_diff_self : ∀ l : List (Nat × Checksum), calc_diff l l = ([], [], []) := by
  intro l
  induction l with
  | nil => simp [calc_diff_nil_left]
  | cons e t ih =>
    rw [calc_diff_cons_eq rfl, ih]
    simp

theorem calc_diff_sub : ∀ l r : List (Nat × Checksum),
    (∀ k ∈ (calc_diff l r).1, k ∈ r.map (fun e => e.1)) ∧
    (∀ k ∈ (calc_diff l r).2.1, k ∈ l.map (fun e => e.1)) ∧
    (∀ k ∈ (calc_diff l r).2.2, k ∈ l.map (fun e => e.1) ∧ k ∈ r.map (fun e => e.1)) := by
  intro l r
  induction l, r using calc_diff.induct with
  | case1 remote =>
    rw [calc_diff_nil_left]
    refine ⟨fun k hk => hk, fun k hk => absurd hk (List.not_mem_nil k), fun k hk =>
      absurd hk (List.not_mem_nil k)⟩
  | case2 l ls =>
    rw [calc_diff_nil_right]
    exact ⟨fun k hk => absurd hk (List.not_mem_nil k), fun k hk => hk, fun k hk =>
      absurd hk (List.not_mem_nil k)⟩
  | case3 l ls r rs hlt ih =>
    rw [calc_diff_cons_lt hlt]
    refine ⟨fun k hk => ih.1 k hk, ?_, ?_⟩
    · intro k hk
      rcases List.mem_cons.mp hk with hke | hk2
      · simp [hke]
      · simp only [List.map_cons, List.mem_cons]
        exact Or.inr (ih.2.1 k hk2)
    · intro k hk
      refine ⟨?_, (ih.2.2 k hk).2⟩
      simp only [List.map_cons, List.mem_cons]
      exact Or.inr (ih.2.2 k hk).1
  | case4 l ls r rs hnlt hgt ih =>
    rw [calc_diff_cons_gt hgt]
    refine ⟨?_, fun k hk => ih.2.1 k hk, ?_⟩
    · intro k hk
      rcases List.mem_cons.mp hk with hke | hk2
      · simp [hke]
      · simp only [List.map_cons, List.mem_cons]
        exact Or.inr (ih.1 k hk2)
    · intro k hk
      refine ⟨(ih.2.2 k hk).1, ?_⟩
      simp only [List.map_cons, List.mem_cons]
      exact Or.inr (ih.2.2 k hk).2
  | case5 l ls r rs hnlt hngt ih =>
    have heq : l.1 = r.1 := by omega
    rw [calc_diff_cons_eq heq]
    refine ⟨?_, ?_, ?_⟩
    · intro k hk
      simp only [List.map_cons, List.mem_cons]
      exact Or.inr (ih.1 k hk)
    · intro k hk
      simp only [List.map_cons, List.mem_cons]
      exact Or.inr (ih.2.1 k hk)
    · intro k hk
      by_cases hv : l.2 = r.2
      · rw [if_pos hv] at hk
        simp only [List.map_cons, List.mem_cons]
        exact ⟨Or.inr (ih.2.2 k hk).1, Or.inr (ih.2.2 k hk).2⟩
      · rw [if_neg hv] at hk
        rcases List.mem_cons.mp hk with hke | hk2
        · simp only [List.map_cons, List.mem_cons]
          exact ⟨Or.inl hke, Or.inl (heq ▸ hke)⟩
        · simp only [List.map_cons, List.mem_cons]
          exact ⟨Or.inr (ih.2.2 k hk2).1, Or.inr (ih.2.2 k hk2).2⟩

theorem Table.sorted_key_mem_gt {α : Type} {e : Nat × α} {t : Table α}
    (hs : Table.SortedKeys (e :: t)) {k : Nat}
    (h : k ∈ t.map (fun x => x.1)) : e.1 < k := by
  simp only [List.mem_map] at h
  obtain ⟨p, hp, hpk⟩ := h
  have := Table.sorted_head_lt hs p hp
  omega

theorem calc_diff_mem_mol : ∀ l r : List (Nat × Checksum), Table.SortedKeys l →
    Table.SortedKeys r → ∀ k : Nat,
    (k ∈ (calc_diff l r).1 ↔ k ∈ r.map (fun e => e.1) ∧ k ∉ l.map (fun e => e.1)) := by
  intro l r
  induction l, r using calc_diff.induct with
  | case1 remote =>
    intro _ _ k
    rw [calc_diff_nil_left]
    simp
  | case2 l ls =>
    intro _ _ k
    rw [calc_diff_nil_right]
    simp
  | case3 l ls r rs hlt ih =>
    intro hsl hsr k
    rw [calc_diff_cons_lt hlt]
    rw [ih (Table.sorted_tail hsl) hsr k]
    constructor
    · rintro ⟨h1, h2⟩
      refine ⟨h1, ?_⟩
      simp only [List.map_cons, List.mem_cons] at h1
      simp only [List.map_cons, List.mem_cons]
      push_neg
      refine ⟨?_, h2⟩
      intro hke
      rcases h1 with hh | hh
      · omega
      · have := Table.sorted_key_mem_gt hsr hh
        omega
    · rintro ⟨h1, h2⟩
      simp only [List.map_cons, List.mem_cons] at h2
      push_neg at h2
      exact ⟨h1, h2.2⟩
  | case4 l ls r rs hnlt hgt ih =>
    intro hsl hsr k
    rw [calc_diff_cons_gt hgt]
    constructor
    · intro hk
      rcases List.mem_cons.mp hk with hke | hk2
      · subst hke
        refine ⟨by simp, ?_⟩
        simp only [List.map_cons, List.mem_cons]
        push_neg
        constructor
        · omega
        · intro hc
          have := Table.sorted_key_mem_gt hsl hc
          omega
      · have h3 := (ih hsl (Table.sorted_tail hsr) k).mp hk2
        refine ⟨?_, h3.2⟩
        simp only [List.map_cons, List.mem_cons]
        exact Or.inr h3.1
    · rintro ⟨h1, h2⟩
      simp only [List.map_cons, List.mem_cons] at h1
      rcases h1 with hh | hh
      · exact List.mem_cons.mpr (Or.inl hh)
      · refine List.mem_cons.mpr (Or.inr ?_)
        exact (ih hsl (Table.sorted_tail hsr) k).mpr ⟨hh, h2⟩
  | case5 l ls r rs hnlt hngt ih =>
    intro hsl hsr k
    have heq : l.1 = r.1 := by omega
    rw [calc_diff_cons_eq heq]
    rw [ih (Table.sorted_tail hsl) (Table.sorted_tail hsr) k]
    constructor
    · rintro ⟨h1, h2⟩
      have hkgt : r.1 < k := Table.sorted_key_mem_gt hsr h1
      constructor
      · simp only [List.map_cons, List.mem_cons]
        exact Or.inr h1
      · simp only [List.map_cons, List.mem_cons]
        push_neg
        exact ⟨by omega, h2⟩
    · rintro ⟨h1, h2⟩
      simp only [List.map_cons, List.mem_cons] at h1 h2
      push_neg at h2
      rcases h1 with h1 | h1
      · exfalso
        apply h2.1
        omega
      · exact ⟨h1, h2.2⟩

theorem calc_diff_mem_mor : ∀ l r : List (Nat × Checksum), Table.SortedKeys l →
    Table.SortedKeys r → ∀ k : Nat,
    (k ∈ (calc_diff l r).2.1 ↔ k ∈ l.map (fun e => e.1) ∧ k ∉ r.map (fun e => e.1)) := by
  intro l r
  induction l, r using calc_diff.induct with
  | case1 remote =>
    intro _ _ k
    rw [calc_diff_nil_left]
    simp
  | case2 l ls =>
    intro _ _ k
    rw [calc_diff_nil_right]
    simp
  | case3 l ls r rs hlt ih =>
    intro hsl hsr k
    rw [calc_diff_cons_lt hlt]
    constructor
    · intro hk
      rcases List.mem_cons.mp hk with hke | hk2
      · subst hke
        refine ⟨by simp, ?_⟩
        simp only [List.map_cons, List.mem_cons]
        push_neg
        constructor
        · omega
        · intro hc
          have := Table.sorted_key_mem_gt hsr hc
          omega
      · have h3 := (ih (Table.sorted_tail hsl) hsr k).mp hk2
        refine ⟨?_, h3.2⟩
        simp only [List.map_cons, List.mem_cons]
        exact Or.inr h3.1
    · rintro ⟨h1, h2⟩
      simp only [List.map_cons, List.mem_cons] at h1
      rcases h1 with hh | hh
      · exact List.mem_cons.mpr (Or.inl hh)
      · refine List.mem_cons.mpr (Or.inr ?_)
        exact (ih (Table.sorted_tail hsl) hsr k).mpr ⟨hh, h2⟩
  | case4 l ls r rs hnlt hgt ih =>
    intro hsl hsr k
    rw [calc_diff_cons_gt hgt]
    rw [ih hsl (Table.sorted_tail hsr) k]
    constructor
    · rintro ⟨h1, h2⟩
      refine ⟨h1, ?_⟩
      simp only [List.map_cons, List.mem_cons] at h1
      simp only [List.map_cons, List.mem_cons]
      push_neg
      refine ⟨?_, h2⟩
      intro hke
      rcases h1 with hh | hh
      · omega
      · have := Table.sorted_key_mem_gt hsl hh
        omega
    · rintro ⟨h1, h2⟩
      simp only [List.map_cons, List.mem_cons] at h2
      push_neg at h2
      exact ⟨h1, h2.2⟩
  | case5 l ls r rs hnlt hngt ih =>
    intro hsl hsr k
    have heq : l.1 = r.1 := by omega
    rw [calc_diff_cons_eq heq]
    rw [ih (Table.sorted_tail hsl) (Table.sorted_tail hsr) k]
    constructor
    · rintro ⟨h1, h2⟩
      have hkgt : l.1 < k := Table.sorted_key_mem_gt hsl h1
      constructor
      · simp only [List.map_cons, List.mem_cons]
        exact Or.inr h1
      · simp only [List.map_cons, List.mem_cons]
        push_neg
        exact ⟨by omega, h2⟩
    · rintro ⟨h1, h2⟩
      simp only [List.map_cons, List.mem_cons] at h1 h2
      push_neg at h2
      rcases h1 with h1 | h1
      · exfalso
        apply h2.1
        omega
      · exact ⟨h1, h2.2⟩

theorem calc_diff_mem_diff : ∀ l r : List (Nat × Checksum), Table.SortedKeys l →
    Table.SortedKeys r → ∀ k : Nat,
    (k ∈ (calc_diff l r).2.2 ↔ ∃ c c2, Table.get? l k = some c ∧
      Table.get? r k = some c2 ∧ c ≠ c2) := by
  intro l r
  induction l, r using calc_diff.induct with
  | case1 remote =>
    intro _ _ k
    rw [calc_diff_nil_left]
    simp [Table.get?]
  | case2 l ls =>
    intro _ _ k
    rw [calc_diff_nil_right]
    simp [Table.get?]
  | case3 l ls r rs hlt ih =>
    intro hsl hsr k
    rw [calc_diff_cons_lt hlt]
    rw [ih (Table.sorted_tail hsl) hsr k]
    constructor
    · rintro ⟨c, c2, hc, hc2, hne⟩
      refine ⟨c, c2, ?_, hc2, hne⟩
      have hkgt : l.1 < k := by
        have := Table.mem_of_get? _ _ _ hc
        have h2 := Table.sorted_head_lt hsl _ this
        exact h2
      simp only [Table.get?]
      rw [if_neg (by omega)]
      exact hc
    · rintro ⟨c, c2, hc, hc2, hne⟩
      by_cases hke : k = l.1
      · exfalso
        -- k = l.1 < r.1 ≤ all keys of r :: rs, but get? (r :: rs) k is some
        have hmem := Table.mem_of_get? _ _ _ hc2
        rcases List.mem_cons.mp hmem with hh | hh
        · have : k = r.1 := congrArg Prod.fst hh
          omega
        · have := Table.sorted_head_lt hsr _ hh
          omega
      · refine ⟨c, c2, ?_, hc2, hne⟩
        simp only [Table.get?, hke, if_neg, if_false] at hc
        exact hc
  | case4 l ls r rs hnlt hgt ih =>
    intro hsl hsr k
    rw [calc_diff_cons_gt hgt]
    rw [ih hsl (Table.sorted_tail hsr) k]
    constructor
    · rintro ⟨c, c2, hc, hc2, hne⟩
      refine ⟨c, c2, hc, ?_, hne⟩
      have hkgt : r.1 < k := by
        have := Table.mem_of_get? _ _ _ hc2
        have h2 := Table.sorted_head_lt hsr _ this
        exact h2
      simp only [Table.get?]
      rw [if_neg (by omega)]
      exact hc2
    · rintro ⟨c, c2, hc, hc2, hne⟩
      by_cases hke : k = r.1
      · exfalso
        have hmem := Table.mem_of_get? _ _ _ hc
        rcases List.mem_cons.mp hmem with hh | hh
        · have : k = l.1 := congrArg Prod.fst hh
          omega
        · have := Table.sorted_head_lt hsl _ hh
          omega
      · refine ⟨c, c2, hc, ?_, hne⟩
        simp only [Table.get?, hke, if_neg, if_false] at hc2
        exact hc2
  | case5 l ls r rs hnlt hngt ih =>
    intro hsl hsr k
    have heq : l.1 = r.1 := by omega
    rw [calc_diff_cons_eq heq]
    by_cases hke : k = l.1
    · subst hke
      have hgl : Table.get? (l :: ls) l.1 = some l.2 := by simp [Table.get?]
      have hgr : Table.get? (r :: rs) l.1 = some r.2 := by simp [Table.get?, heq]
      by_cases hv : l.2 = r.2
      · rw [if_pos hv]
        rw [ih (Table.sorted_tail hsl) (Table.sorted_tail hsr) l.1]
        constructor
        · rintro ⟨c, c2, hc, _, _⟩
          exfalso
          have hmem := Table.mem_of_get? _ _ _ hc
          have := Table.sorted_head_lt hsl _ hmem
          omega
        · rintro ⟨c, c2, hc, hc2, hne⟩
          exfalso
          rw [hgl] at hc
          rw [hgr] at hc2
          apply hne
          rw [← Option.some.inj hc, ← Option.some.inj hc2]
          exact hv
      · rw [if_neg hv]
        constructor
        · intro _
          exact ⟨l.2, r.2, hgl, hgr, hv⟩
        · intro _
          exact List.mem_cons_self _ _
    · have hgl : ∀ c, (Table.get? (l :: ls) k = some c ↔ Table.get? ls k = some c) := by
        intro c
        simp [Table.get?, hke]
      have hgr : ∀ c, (Table.get? (r :: rs) k = some c ↔ Table.get? rs k = some c) := by
        intro c
        have hkr : k ≠ r.1 := by omega
        simp [Table.get?, hkr]
      have hmem : k ∈ (if l.2 = r.2 then (calc_diff ls rs).2.2
          else l.1 :: (calc_diff ls rs).2.2) ↔ k ∈ (calc_diff ls rs).2.2 := by
        split_ifs
        · exact Iff.rfl
        · simp [hke]
      rw [hmem, ih (Table.sorted_tail hsl) (Table.sorted_tail hsr) k]
      constructor
      · rintro ⟨c, c2, hc, hc2, hne⟩
        exact ⟨c, c2, (hgl c).mpr hc, (hgr c2).mpr hc2, hne⟩
      · rintro ⟨c, c2, hc, hc2, hne⟩
        exact ⟨c, c2, (hgl c).mp hc, (hgr c2).mp hc2, hne⟩

theorem chain_lt_of_sorted_map {l : List (Nat × Checksum)} (h : Table.SortedKeys l) :
    List.Chain' (fun a b : Nat => a < b) (l.map (fun e => e.1)) := by
  rw [List.chain'_map]
  exact h

theorem calc_diff_sorted_outputs : ∀ l r : List (Nat × Checksum), Table.SortedKeys l →
    Table.SortedKeys r →
    List.Chain' (fun a b : Nat => a < b) (calc_diff l r).1 ∧
    List.Chain' (fun a b : Nat => a < b) (calc_diff l r).2.1 ∧
    List.Chain' (fun a b : Nat => a < b) (calc_diff l r).2.2 := by
  intro l r
  induction l, r using calc_diff.induct with
  | case1 remote =>
    intro _ hsr
    rw [calc_diff_nil_left]
    exact ⟨chain_lt_of_sorted_map hsr, List.chain'_nil, List.chain'_nil⟩
  | case2 l ls =>
    intro hsl _
    rw [calc_diff_nil_right]
    exact ⟨List.chain'_nil, chain_lt_of_sorted_map hsl, List.chain'_nil⟩
  | case3 l ls r rs hlt ih =>
    intro hsl hsr
    obtain ⟨ih1, ih2, ih3⟩ := ih (Table.sorted_tail hsl) hsr
    rw [calc_diff_cons_lt hlt]
    refine ⟨ih1, ?_, ih3⟩
    rw [List.chain'_cons']
    refine ⟨?_, ih2⟩
    intro h hh
    have hmem := List.mem_of_mem_head? hh
    have hks := (calc_diff_sub ls (r :: rs)).2.1 h hmem
    exact Table.sorted_key_mem_gt hsl hks
  | case4 l ls r rs hnlt hgt ih =>
    intro hsl hsr
    obtain ⟨ih1, ih2, ih3⟩ := ih hsl (Table.sorted_tail hsr)
    rw [calc_diff_cons_gt hgt]
    refine ⟨?_, ih2, ih3⟩
    rw [List.chain'_cons']
    refine ⟨?_, ih1⟩
    intro h hh
    have hmem := List.mem_of_mem_head? hh
    have hks := (calc_diff_sub (l :: ls) rs).1 h hmem
    exact Table.sorted_key_mem_gt hsr hks
  | case5 l ls r rs hnlt hngt ih =>
    intro hsl hsr
    obtain ⟨ih1, ih2, ih3⟩ := ih (Table.sorted_tail hsl) (Table.sorted_tail hsr)
    have heq : l.1 = r.1 := by omega
    rw [calc_diff_cons_eq heq]
    refine ⟨ih1, ih2, ?_⟩
    split_ifs with hv
    · exact ih3
    · rw [List.chain'_cons']
      refine ⟨?_, ih3⟩
      intro h hh
      have hmem := List.mem_of_mem_head? hh
      have hks := ((calc_diff_sub ls rs).2.2 h hmem).1
      exact Table.sorted_key_mem_gt hsl hks

/-! ## Claim C5: calc_diff -/

/-- C5 (counterexample): the claim says the three output lists form a
partition of the keys appearing in either input. On inputs sharing key `1`
with equal digests, `calc_diff` returns three empty lists, so key `1`,
which appears in both inputs, lies in no output class: the outputs do not
cover the keys of the inputs. -/
theorem c5_calc_diff_counterexample :
    calc_diff [(1, Checksum.ofBytes [0])] [(1, Checksum.ofBytes [0])] = ([], [], []) ∧
    1 ∈ ([(1, Checksum.ofBytes [0])] : List (Nat × Checksum)).map (fun e => e.1) ∧
    1 ∉ (calc_diff [(1, Checksum.ofBytes [0])] [(1, Checksum.ofBytes [0])]).1 ∧
    1 ∉ (calc_diff [(1, Checksum.ofBytes [0])] [(1, Checksum.ofBytes [0])]).2.1 ∧
    1 ∉ (calc_diff [(1, Checksum.ofBytes [0])] [(1, Checksum.ofBytes [0])]).2.2 := by
  have h : calc_diff [(1, Checksum.ofBytes [0])] [(1, Checksum.ofBytes [0])]
      = ([], [], []) := by
    rw [calc_diff_cons_eq rfl, calc_diff_nil_left]
    simp
  rw [h]
  simp

/-- C5 (amended): for key-sorted inputs `L`, `R`, the outputs
`(only_in_R, only_in_L, differing)` of `calc_diff` form a partition of the
keys at which the two inputs disagree, not of all keys appearing in either
input: `only_in_R` is exactly `keys R \ keys L`, `only_in_L` is exactly
`keys L \ keys R`, `differing` is exactly the keys present in both whose
digests differ (keys present in both with equal digests appear in no output
list); each output list is strictly ascending, and the tail of a
non-exhausted side goes to the corresponding `only_in` list. -/
theorem c5_calc_diff_amended (L R : List (Nat × Checksum))
    (hL : Table.SortedKeys L) (hR : Table.SortedKeys R) :
    (∀ k, k ∈ (calc_diff L R).1 ↔
      k ∈ R.map (fun e => e.1) ∧ k ∉ L.map (fun e => e.1)) ∧
    (∀ k, k ∈ (calc_diff L R).2.1 ↔
      k ∈ L.map (fun e => e.1) ∧ k ∉ R.map (fun e => e.1)) ∧
    (∀ k, k ∈ (calc_diff L R).2.2 ↔
      ∃ c c2, Table.get? L k = some c ∧ Table.get? R k = some c2 ∧ c ≠ c2) ∧
    List.Chain' (fun a b : Nat => a < b) (calc_diff L R).1 ∧
    List.Chain' (fun a b : Nat => a < b) (calc_diff L R).2.1 ∧
    List.Chain' (fun a b : Nat => a < b) (calc_diff L R).2.2 ∧
    calc_diff L [] = ([], L.map (fun e => e.1), []) ∧
    calc_diff [] R = (R.map (fun e => e.1), [], []) := by
  obtain ⟨h1, h2, h3⟩ := calc_diff_sorted_outputs L R hL hR
  exact ⟨calc_diff_mem_mol L R hL hR, calc_diff_mem_mor L R hL hR,
    calc_diff_mem_diff L R hL hR, h1, h2, h3,
    calc_diff_nil_right L, calc_diff_nil_left R⟩

/-- C5 (witness): the amended theorem applied to the concrete sorted inputs
of the repository's own `calc_diff` unit test. -/
theorem c5_calc_diff_amended_witness :
    (2 ∈ (calc_diff [(1, Checksum.ofBytes [0]), (2, Checksum.ofBytes [0])]
      [(1, Checksum.ofBytes [0])]).2.1 ↔
      2 ∈ ([(1, Checksum.ofBytes [0]), (2, Checksum.ofBytes [0])].map
        (fun e : Nat × Checksum => e.1)) ∧
      2 ∉ ([(1, Checksum.ofBytes [0])].map (fun e : Nat × Checksum => e.1))) := by
  have h := c5_calc_diff_amended
    [(1, Checksum.ofBytes [0]), (2, Checksum.ofBytes [0])]
    [(1, Checksum.ofBytes [0])]
    (by unfold Table.SortedKeys; simp)
    (by unfold Table.SortedKeys; simp)
  exact h.2.1 2

/-! ## Claim C6: absence semantics -/

/-- C6: every read operation invoked on a storage whose backing table has
never been written returns a successful empty result (`[]`, or `none` for
`get_photos`) rather than an error. In this embedding the reads are pure
functions of the storage and return no modified storage, so they create no
table. -/
theorem c6_absent_tables :
    (∀ s : LocalStorage, s.checksum_year = none → get_years_checksums s = []) ∧
    (∀ (s : LocalStorage) (y : Nat), s.checksum_month = none →
      get_months_checksum s y = []) ∧
    (∀ (s : LocalStorage) (ym : Nat), s.checksum_day = none →
      get_days_checksum s ym = []) ∧
    (∀ (s : LocalStorage) (lo hi : Nat), s.checksum_day = none →
      get_existing_days_in_range s lo hi = []) ∧
    (∀ (s : LocalStorage) (ymd : Nat), s.data_in_day = none →
      get_photos s ymd = none) := by
  refine ⟨?_, ?_, ?_, ?_, ?_⟩
  · intro s h
    unfold get_years_checksums
    rw [h]
  · intro s y h
    unfold get_months_checksum
    rw [h]
  · intro s ym h
    unfold get_days_checksum
    rw [h]
  · intro s lo hi h
    unfold get_existing_days_in_range
    rw [h]
  · intro s ymd h
    unfold get_photos
    rw [h]

/-- C6 (witness): the five reads on a freshly created storage. -/
theorem c6_absent_tables_witness :
    get_years_checksums emptyStorage = [] ∧
    get_months_checksum emptyStorage 2022 = [] ∧
    get_days_checksum emptyStorage 202201 = [] ∧
    get_existing_days_in_range emptyStorage 0 99999999 = [] ∧
    get_photos emptyStorage 20220101 = none :=
  ⟨c6_absent_tables.1 emptyStorage rfl,
   c6_absent_tables.2.1 emptyStorage 2022 rfl,
   c6_absent_tables.2.2.1 emptyStorage 202201 rfl,
   c6_absent_tables.2.2.2.1 emptyStorage 0 99999999 rfl,
   c6_absent_tables.2.2.2.2 emptyStorage 20220101 rfl⟩

/-! ## Claim C9: date encoding operations -/

/-- C9: the six date-encoding operations are pure total functions over
`u32`: for every `u32` input they are defined (totality is by
construction in this embedding) and their results are again `u32` values;
wrapping arithmetic means no input can fail or panic. -/
theorem c9_date_functions_total :
    (∀ y : Nat, (ymd_interval_for_y y).1 < 4294967296 ∧
      (ymd_interval_for_y y).2 < 4294967296) ∧
    (∀ ym : Nat, (ymd_interval_for_ym ym).1 < 4294967296 ∧
      (ymd_interval_for_ym ym).2 < 4294967296) ∧
    (∀ y : Nat, (ym_range_for_y y).1 < 4294967296 ∧
      (ym_range_for_y y).2 < 4294967296) ∧
    (∀ ym : Nat, (ymd_range_for_ym ym).1 < 4294967296 ∧
      (ymd_range_for_ym ym).2 < 4294967296) ∧
    (∀ d : Nat, d < 4294967296 → ymd_to_ym d < 4294967296) ∧
    (∀ ym : Nat, ym < 4294967296 → ym_to_y ym < 4294967296) := by
  refine ⟨?_, ?_, ?_, ?_, ?_, ?_⟩
  · intro y
    unfold ymd_interval_for_y
    exact ⟨Nat.mod_lt _ (by omega), Nat.mod_lt _ (by omega)⟩
  · intro ym
    unfold ymd_interval_for_ym
    exact ⟨Nat.mod_lt _ (by omega), Nat.mod_lt _ (by omega)⟩
  · intro y
    unfold ym_range_for_y
    exact ⟨Nat.mod_lt _ (by omega), Nat.mod_lt _ (by omega)⟩
  · intro ym
    unfold ymd_range_for_ym
    exact ⟨Nat.mod_lt _ (by omega), Nat.mod_lt _ (by omega)⟩
  · intro d h
    unfold ymd_to_ym
    omega
  · intro ym h
    unfold ym_to_y
    omega

/-- C9 (witness): the operations evaluated at a concrete `u32` input. -/
theorem c9_date_functions_total_witness :
    ymd_to_ym 20150503 < 4294967296 ∧ ym_to_y 201505 < 4294967296 :=
  ⟨c9_date_functions_total.2.2.2.2.1 20150503 (by decide),
   c9_date_functions_total.2.2.2.2.2 201505 (by decide)⟩

/-! ## Claim C10: sync exclusion -/

/-- C10: while a sync holds the node's sync mutex, a second call to
`sync_with_peers` on the same node fails immediately with the
`SyncInProcess` error, and the storages of both nodes are left exactly as
they were (no writes). The `try_lock` of the source is modelled by the
`locked` flag; the never-awaited aspect of the lock is outside a
sequential embedding. -/
theorem c10_sync_exclusion (a b : LocalStorage) :
    sync_with_peers true a b = Except.error DistStoreError.SyncInProcess ∧
    sync_result true a b = (a, b) :=
  ⟨rfl, rfl⟩

/-! ## Claim C2: checksum invariants after add_photos_to_day -/

/-- C2: after any sequence of successful `add_photos_to_day` calls
(equivalently `propose`) on a fresh storage, for every day key present in
the data table: the day digest is the digest of the concatenated object
ids of the stored (ascending) day entry, peer labels excluded; the parent
month digest is the digest of the concatenation of the day digests in
`ymd_range_for_ym`, ascending; the parent year digest is the digest of the
concatenation of the month digests in `ym_range_for_y`, ascending; and the
stored entry has unique object ids sorted strictly ascending, also when
the input sequence contained duplicate object ids. -/
theorem c2_checksum_invariants (s : LocalStorage) (hs : Reachable s) (ymd : Nat)
    (L : List (Bytes × List Bytes)) (hL : Table.get? (dataTable s) ymd = some L) :
    Table.get? (chkDayTable s) ymd = some (calc_photos_checksum L) ∧
    Table.get? (chkMonthTable s) (ymd_to_ym ymd) = some (Checksum.ofSums
      ((Table.range (chkDayTable s) (ymd_range_for_ym (ymd_to_ym ymd)).1
        (ymd_range_for_ym (ymd_to_ym ymd)).2).map (fun e => e.2))) ∧
    Table.get? (chkYearTable s) (ym_to_y (ymd_to_ym ymd)) = some (Checksum.ofSums
      ((Table.range (chkMonthTable s) (ym_range_for_y (ym_to_y (ymd_to_ym ymd))).1
        (ym_range_for_y (ym_to_y (ymd_to_ym ymd))).2).map (fun e => e.2))) ∧
    (L.map (fun e => e.1)).Nodup ∧
    List.Chain' (fun e f => ltBytes e.1 f.1 = true) L := by
  have inv := inv_of_reachable hs
  have hsome : (Table.get? (dataTable s) ymd).isSome = true := by
    rw [hL]
    rfl
  have hmonth : (Table.get? (chkMonthTable s) (ymd_to_ym ymd)).isSome = true :=
    (inv.month_keys (ymd_to_ym ymd)).mpr ⟨ymd, hsome, rfl⟩
  have hyear : (Table.get? (chkYearTable s) (ym_to_y (ymd_to_ym ymd))).isSome = true :=
    (inv.year_keys (ym_to_y (ymd_to_ym ymd))).mpr ⟨ymd, hsome, by rw [ymd_parent_div]⟩
  obtain ⟨cm, hcm⟩ := Option.isSome_iff_exists.mp hmonth
  obtain ⟨cy, hcy⟩ := Option.isSome_iff_exists.mp hyear
  refine ⟨inv.day_val ymd L hL, ?_, ?_, ?_, ?_⟩
  · rw [hcm, inv.month_val _ _ hcm]
  · rw [hcy, inv.year_val _ _ hcy]
  · exact photosWF_nodup_fst (inv.photos_wf ymd L hL)
  · exact inv.photos_wf ymd L hL

/-- C2 (witness): the invariants instantiated after one concrete add with
a duplicated object id in the input. -/
theorem c2_checksum_invariants_witness :
    Table.get? (chkDayTable (add_photos_to_day emptyStorage 20220101
        [([0], [[7]]), ([0], [[8]])]).1) 20220101
      = some (calc_photos_checksum [([0], [[7], [8]])]) := by
  have h := c2_checksum_invariants
    (add_photos_to_day emptyStorage 20220101 [([0], [[7]]), ([0], [[8]])]).1
    (Reachable.step emptyStorage 20220101 [([0], [[7]]), ([0], [[8]])]
      Reachable.fresh (by decide))
    20220101 [([0], [[7], [8]])] (by decide)
  exact h.1

/-! ## Claim C7: sibling isolation -/

theorem Table.length_insert_of_not_mem {α : Type} : ∀ {t : Table α} {k : Nat} (v : α),
    k ∉ t.map (fun e => e.1) → (Table.insert t k v).length = t.length + 1 := by
  intro t
  induction t with
  | nil =>
    intro k v _
    rfl
  | cons e t ih =>
    intro k v h
    simp only [List.map_cons, List.mem_cons] at h
    push_neg at h
    simp only [Table.insert]
    split_ifs with h1 h2
    · simp
    · exact absurd h2 h.1
    · simp only [List.length_cons]
      rw [ih v h.2]

/-- Writing a digest at an in-range key whose stored value (if any) differs
changes the digest stream of the range. -/
theorem insert_range_map_snd_ne {t : Table Checksum} (hs : Table.SortedKeys t)
    {k : Nat} {v : Checksum} {lo hi : Nat} (hlo : lo ≤ k) (hhi : k ≤ hi)
    (hne : Table.get? t k ≠ some v) :
    (Table.range (Table.insert t k v) lo hi).map (fun e => e.2)
      ≠ (Table.range t lo hi).map (fun e => e.2) := by
  rw [Table.range_insert_in t hs k v lo hi hlo hhi]
  intro heq
  cases hget : Table.get? t k with
  | none =>
    have hnotin : k ∉ (Table.range t lo hi).map (fun e => e.1) := by
      rw [← Table.get?_eq_none_iff]
      rw [Table.get?_range_in t lo hi k hlo hhi]
      exact hget
    have hlen := congrArg List.length heq
    rw [List.length_map, List.length_map, Table.length_insert_of_not_mem v hnotin] at hlen
    omega
  | some w =>
    have hw : Table.get? (Table.range t lo hi) k = some w := by
      rw [Table.get?_range_in t lo hi k hlo hhi]
      exact hget
    have hfst : (Table.insert (Table.range t lo hi) k v).map (fun e => e.1)
        = (Table.range t lo hi).map (fun e => e.1) :=
      Table.map_fst_insert_mem _ (Table.sortedKeys_range hs lo hi) k v w hw
    have hall : Table.insert (Table.range t lo hi) k v = Table.range t lo hi :=
      pair_list_ext _ _ hfst heq
    have hgk := congrArg (fun u => Table.get? u k) hall
    simp only [Table.get?_insert_self] at hgk
    rw [hw] at hgk
    rw [← Option.some.inj hgk] at hget
    exact hne hget

/-- C7 (counterexample): the claim asserts that every `add_photos_to_day`
call on `d1` changes `CHK_YM` and `CHK_Y` of the parents of `d1`. A second,
identical add is a no-op: the month and year digests of the parents of
`20220101` are unchanged by it, refuting the claim at `d1 = 20220101`,
`d2 = 20220102`. -/
theorem c7_sibling_isolation_counterexample :
    Table.get? (chkMonthTable (add_photos_to_day
        (add_photos_to_day emptyStorage 20220101 [([0], [[0]])]).1
        20220101 [([0], [[0]])]).1) 202201
      = Table.get? (chkMonthTable
          (add_photos_to_day emptyStorage 20220101 [([0], [[0]])]).1) 202201 ∧
    Table.get? (chkYearTable (add_photos_to_day
        (add_photos_to_day emptyStorage 20220101 [([0], [[0]])]).1
        20220101 [([0], [[0]])]).1) 2022
      = Table.get? (chkYearTable
          (add_photos_to_day emptyStorage 20220101 [([0], [[0]])]).1) 2022 := by
  constructor <;> decide

/-- C7 (amended): for a reachable storage and distinct day keys
`d2 ≠ d1`, a call to `add_photos_to_day` on `d1` leaves `CHK_YMD[d2]`
unchanged; and whenever the call actually changes `CHK_YMD[d1]` and `d1`
encodes a month in `1..12` and a day in `1..31`, it changes
`CHK_YM[ymd_to_ym d1]` and `CHK_Y[ym_to_y (ymd_to_ym d1)]`. (The claim
as stated is refuted by a no-op re-add, whose digests are all unchanged.)
-/
theorem c7_sibling_isolation_amended (s : LocalStorage) (hs : Reachable s)
    (d1 d2 : Nat) (E : List (Bytes × List Bytes)) (hne : d2 ≠ d1)
    (hb : d1 < 4294967296) :
    Table.get? (chkDayTable (add_photos_to_day s d1 E).1) d2
      = Table.get? (chkDayTable s) d2 ∧
    (Table.get? (chkDayTable (add_photos_to_day s d1 E).1) d1
        ≠ Table.get? (chkDayTable s) d1 →
      1 ≤ d1 % 100 → d1 % 100 ≤ 31 → 1 ≤ d1 / 100 % 100 → d1 / 100 % 100 ≤ 12 →
      Table.get? (chkMonthTable (add_photos_to_day s d1 E).1) (ymd_to_ym d1)
        ≠ Table.get? (chkMonthTable s) (ymd_to_ym d1) ∧
      Table.get? (chkYearTable (add_photos_to_day s d1 E).1) (ym_to_y (ymd_to_ym d1))
        ≠ Table.get? (chkYearTable s) (ym_to_y (ymd_to_ym d1))) := by
  have inv := inv_of_reachable hs
  constructor
  · rw [add_chkDay_eq]
    unfold newDayTable
    exact Table.get?_insert_ne _ _ _ _ hne
  · intro hch hd1 hd2 hm1 hm2
    have hymb : ymd_to_ym d1 ≤ 42949672 := by
      unfold ymd_to_ym
      omega
    have hyb : ym_to_y (ymd_to_ym d1) ≤ 42949672 := by
      rw [ymd_parent_div]
      omega
    rw [add_chkDay_eq] at hch
    unfold newDayTable at hch
    rw [Table.get?_insert_self] at hch
    -- the month digest changes
    have hmonth : Table.get? (chkMonthTable (add_photos_to_day s d1 E).1) (ymd_to_ym d1)
        ≠ Table.get? (chkMonthTable s) (ymd_to_ym d1) := by
      rw [add_chkMonth_eq]
      unfold newMonthTable
      rw [Table.get?_insert_self]
      cases hold : Table.get? (chkMonthTable s) (ymd_to_ym d1) with
      | none => exact fun hcon => Option.noConfusion hcon
      | some c =>
        intro hcon
        have hc := inv.month_val _ _ hold
        have hv := Option.some.inj hcon
        unfold newMonthVal at hv
        rw [hc] at hv
        have hmaps := Checksum.ofSums_inj hv
        unfold newDayTable at hmaps
        rw [ymd_range_for_ym_fst hymb, ymd_range_for_ym_snd hymb] at hmaps
        refine insert_range_map_snd_ne inv.day_sorted ?_ ?_
          (fun hcc => hch (by rw [hcc])) hmaps
        · unfold ymd_to_ym
          omega
        · unfold ymd_to_ym
          omega
    refine ⟨hmonth, ?_⟩
    -- the year digest changes
    rw [add_chkMonth_eq] at hmonth
    unfold newMonthTable at hmonth
    rw [Table.get?_insert_self] at hmonth
    rw [add_chkYear_eq]
    unfold newYearTable
    rw [Table.get?_insert_self]
    cases hold : Table.get? (chkYearTable s) (ym_to_y (ymd_to_ym d1)) with
    | none => exact fun hcon => Option.noConfusion hcon
    | some c =>
      intro hcon
      have hc := inv.year_val _ _ hold
      have hv := Option.some.inj hcon
      unfold newYearVal at hv
      rw [hc] at hv
      have hmaps := Checksum.ofSums_inj hv
      unfold newMonthTable at hmaps
      rw [ym_range_for_y_fst hyb, ym_range_for_y_snd hyb] at hmaps
      refine insert_range_map_snd_ne inv.month_sorted ?_ ?_
        (fun hcc => hmonth (by rw [hcc])) hmaps
      · rw [ymd_parent_div]
        unfold ymd_to_ym
        omega
      · rw [ymd_parent_div]
        unfold ymd_to_ym
        omega

/-- C7 (witness): the amended theorem applied to a fresh storage, a first
add at `d1 = 20220101` (a genuine change of `CHK_YMD[d1]`), and sibling
`d2 = 20220102`. -/
theorem c7_sibling_isolation_amended_witness :
    Table.get? (chkDayTable (add_photos_to_day emptyStorage 20220101
        [([0], [[0]])]).1) 20220102
      = Table.get? (chkDayTable emptyStorage) 20220102 ∧
    Table.get? (chkMonthTable (add_photos_to_day emptyStorage 20220101
        [([0], [[0]])]).1) 202201
      ≠ Table.get? (chkMonthTable emptyStorage) 202201 := by
  have h := c7_sibling_isolation_amended emptyStorage Reachable.fresh 20220101 20220102
    [([0], [[0]])] (by decide) (by decide)
  refine ⟨h.1, ?_⟩
  have h2 := h.2 (by decide) (by decide) (by decide) (by decide) (by decide)
  exact h2.1

/-! ## Claim C4: idempotence of add_photos_to_day -/

/-- C4: from any reachable storage, calling `add_photos_to_day ymd E`
twice in succession leaves every one of the four tables byte-identical to
its state after the first call, and both calls return the same day
digest. -/
theorem c4_add_idempotent (s : LocalStorage) (hs : Reachable s) (ymd : Nat)
    (E : List (Bytes × List Bytes)) (hb : ymd < 4294967296) :
    dataTable (add_photos_to_day (add_photos_to_day s ymd E).1 ymd E).1
      = dataTable (add_photos_to_day s ymd E).1 ∧
    chkDayTable (add_photos_to_day (add_photos_to_day s ymd E).1 ymd E).1
      = chkDayTable (add_photos_to_day s ymd E).1 ∧
    chkMonthTable (add_photos_to_day (add_photos_to_day s ymd E).1 ymd E).1
      = chkMonthTable (add_photos_to_day s ymd E).1 ∧
    chkYearTable (add_photos_to_day (add_photos_to_day s ymd E).1 ymd E).1
      = chkYearTable (add_photos_to_day s ymd E).1 ∧
    (add_photos_to_day (add_photos_to_day s ymd E).1 ymd E).2
      = (add_photos_to_day s ymd E).2 := by
  have inv1 : Inv (add_photos_to_day s ymd E).1 := inv_add (inv_of_reachable hs) ymd E hb
  have hP : Table.get? (dataTable (add_photos_to_day s ymd E).1) ymd
      = some (mergedDay s ymd E) := by
    rw [add_data_eq]
    exact Table.get?_insert_self _ _ _
  have hwf : PhotosWF (mergedDay s ymd E) := inv1.photos_wf ymd _ hP
  have hnod : ((mergedDay s ymd E).map (fun e => e.1)).Nodup := photosWF_nodup_fst hwf
  have hsup : ∀ e ∈ E, ∃ ps, (e.1, ps) ∈ mergedDay s ymd E ∧ ∀ p ∈ e.2, p ∈ ps := by
    intro e he
    obtain ⟨ps, hm, hsub⟩ :=
      @foldl_merge_hasSup E ((Table.get? (dataTable s) ymd).getD []) e he
    exact ⟨ps, mem_sortPhotos.mpr hm, hsub⟩
  have hfold : List.foldl merge_photo (mergedDay s ymd E) E = mergedDay s ymd E :=
    foldl_merge_eq_self hnod hsup
  have hmerged1 : mergedDay (add_photos_to_day s ymd E).1 ymd E = mergedDay s ymd E := by
    unfold mergedDay
    rw [hP]
    simp only [Option.getD_some]
    rw [hfold]
    exact sortPhotos_of_wf hwf
  have hCD1get : Table.get? (chkDayTable (add_photos_to_day s ymd E).1) ymd
      = some (calc_photos_checksum (mergedDay s ymd E)) := by
    rw [add_chkDay_eq]
    unfold newDayTable
    exact Table.get?_insert_self _ _ _
  have hCD : chkDayTable (add_photos_to_day (add_photos_to_day s ymd E).1 ymd E).1
      = chkDayTable (add_photos_to_day s ymd E).1 := by
    rw [add_chkDay_eq]
    unfold newDayTable
    rw [hmerged1]
    exact Table.insert_eq_self _ inv1.day_sorted ymd _ hCD1get
  have hNDT : newDayTable (add_photos_to_day s ymd E).1 ymd E = newDayTable s ymd E := by
    rw [← add_chkDay_eq (add_photos_to_day s ymd E).1 ymd E, hCD, add_chkDay_eq]
  have hMV : newMonthVal (add_photos_to_day s ymd E).1 ymd E = newMonthVal s ymd E := by
    unfold newMonthVal
    rw [hNDT]
  have hCM1get : Table.get? (chkMonthTable (add_photos_to_day s ymd E).1) (ymd_to_ym ymd)
      = some (newMonthVal s ymd E) := by
    rw [add_chkMonth_eq]
    unfold newMonthTable
    exact Table.get?_insert_self _ _ _
  have hCM : chkMonthTable (add_photos_to_day (add_photos_to_day s ymd E).1 ymd E).1
      = chkMonthTable (add_photos_to_day s ymd E).1 := by
    rw [add_chkMonth_eq]
    unfold newMonthTable
    rw [hMV]
    exact Table.insert_eq_self _ inv1.month_sorted _ _ hCM1get
  have hNMT : newMonthTable (add_photos_to_day s ymd E).1 ymd E
      = newMonthTable s ymd E := by
    rw [← add_chkMonth_eq (add_photos_to_day s ymd E).1 ymd E, hCM, add_chkMonth_eq]
  have hYV : newYearVal (add_photos_to_day s ymd E).1 ymd E = newYearVal s ymd E := by
    unfold newYearVal
    rw [hNMT]
  have hCY1get : Table.get? (chkYearTable (add_photos_to_day s ymd E).1)
      (ym_to_y (ymd_to_ym ymd)) = some (newYearVal s ymd E) := by
    rw [add_chkYear_eq]
    unfold newYearTable
    exact Table.get?_insert_self _ _ _
  have hCY : chkYearTable (add_photos_to_day (add_photos_to_day s ymd E).1 ymd E).1
      = chkYearTable (add_photos_to_day s ymd E).1 := by
    rw [add_chkYear_eq]
    unfold newYearTable
    rw [hYV]
    exact Table.insert_eq_self _ inv1.year_sorted _ _ hCY1get
  refine ⟨?_, hCD, hCM, hCY, ?_⟩
  · rw [add_data_eq, hmerged1]
    exact Table.insert_eq_self _ inv1.data_sorted ymd _ hP
  · rw [add_snd_eq, add_snd_eq, hmerged1]

/-- C4 (witness): idempotence at a concrete storage and entry list. -/
theorem c4_add_idempotent_witness :
    (add_photos_to_day (add_photos_to_day emptyStorage 20220101
        [([0], [[1]]), ([0], [[2]])]).1 20220101 [([0], [[1]]), ([0], [[2]])]).2
      = (add_photos_to_day emptyStorage 20220101 [([0], [[1]]), ([0], [[2]])]).2 := by
  have h := c4_add_idempotent emptyStorage Reachable.fresh 20220101
    [([0], [[1]]), ([0], [[2]])] (by decide)
  exact h.2.2.2.2

/-! ## Claim C3: peer union -/

theorem map_if_fst_not_mem {l : List (Bytes × List Bytes)} {x : Bytes}
    {g : Bytes × List Bytes → Bytes × List Bytes}
    (h : x ∉ l.map (fun e => e.1)) :
    l.map (fun e => if e.1 = x then g e else e) = l := by
  induction l with
  | nil => rfl
  | cons f rest ih =>
    simp only [List.map_cons, List.mem_cons] at h
    push_neg at h
    simp only [List.map_cons]
    rw [if_neg (fun hc => h.1 hc.symm), ih h.2]

theorem merge_photo_eq_map {l : List (Bytes × List Bytes)} {np : Bytes × List Bytes}
    (hn : (l.map (fun e => e.1)).Nodup) (hm : np.1 ∈ l.map (fun e => e.1)) :
    merge_photo l np = l.map (fun e => if e.1 = np.1 then
      (e.1, e.2 ++ np.2.filter (fun p => decide (p ∉ e.2))) else e) := by
  induction l with
  | nil => cases hm
  | cons f rest ih =>
    simp only [List.map_cons, List.nodup_cons] at hn
    by_cases hf : f.1 = np.1
    · simp only [merge_photo, hf, if_pos, List.map_cons]
      have hnp : np.1 ∉ rest.map (fun e => e.1) := hf ▸ hn.1
      rw [map_if_fst_not_mem hnp]
    · simp only [merge_photo, hf, if_neg, if_false, List.map_cons]
      have hm2 : np.1 ∈ rest.map (fun e => e.1) := by
        simp only [List.map_cons, List.mem_cons] at hm
        rcases hm with hm | hm
        · exact absurd hm.symm hf
        · exact hm
      rw [ih hn.2 hm2]

theorem map_fst_update {l : List (Bytes × List Bytes)} {x : Bytes} {peers2 : List Bytes} :
    (l.map (fun e => if e.1 = x then
      (e.1, e.2 ++ peers2.filter (fun p => decide (p ∉ e.2)))
      else e)).map (fun e => e.1) = l.map (fun e => e.1) := by
  induction l with
  | nil => rfl
  | cons f rest ih =>
    simp only [List.map_cons]
    rw [ih]
    congr 1
    split_ifs <;> rfl

theorem photosWF_iff_fst : ∀ l : List (Bytes × List Bytes),
    PhotosWF l ↔ List.Chain' (fun a b : Bytes => ltBytes a b = true)
      (l.map (fun e => e.1)) := by
  intro l
  induction l with
  | nil => simp [PhotosWF]
  | cons f rest ih =>
    cases rest with
    | nil => simp [PhotosWF]
    | cons g rest2 =>
      simp only [PhotosWF, List.map_cons, List.chain'_cons] at ih ⊢
      rw [ih]

theorem photosWF_of_fst_eq {l l2 : List (Bytes × List Bytes)}
    (h : l2.map (fun e => e.1) = l.map (fun e => e.1)) (hw : PhotosWF l) : PhotosWF l2 := by
  rw [photosWF_iff_fst, h, ← photosWF_iff_fst]
  exact hw

theorem filter_fst_single {l : List (Bytes × List Bytes)} {o : Bytes} {qs : List Bytes}
    (hn : (l.map (fun e => e.1)).Nodup) (hm : (o, qs) ∈ l) :
    l.filter (fun e => decide (e.1 = o)) = [(o, qs)] := by
  induction l with
  | nil => cases hm
  | cons f rest ih =>
    simp only [List.map_cons, List.nodup_cons] at hn
    rcases List.mem_cons.mp hm with hme | hm2
    · have hno : o ∉ rest.map (fun e => e.1) := by
        intro hc
        apply hn.1
        rw [← hme]
        exact hc
      have hrest : rest.filter (fun e => decide (e.1 = o)) = [] := by
        rw [List.filter_eq_nil_iff]
        intro e he
        simp only [decide_eq_true_eq]
        intro hc
        apply hno
        rw [← hc]
        exact List.mem_map.mpr ⟨e, he, rfl⟩
      rw [← hme, List.filter_cons_of_pos (by simp), hrest]
    · have hf : f.1 ≠ o := by
        intro hc
        apply hn.1
        rw [hc]
        exact List.mem_map.mpr ⟨(o, qs), hm2, rfl⟩
      rw [List.filter_cons_of_neg (by simpa using hf)]
      exact ih hn.2 hm2

/-- C3: starting from a reachable storage whose day `ymd` holds no entry
for object id `o`, adding `(o, [p1])` and then `(o, [p2])` leaves exactly
one entry for `o` in `DATA[ymd]`, whose peer list is the set `{p1, p2}`
(order-fixed, no duplicates), and `CHK_YMD[ymd]` is unchanged between the
two calls because peer labels are excluded from the digest. -/
theorem c3_peer_union (s : LocalStorage) (hs : Reachable s) (ymd : Nat)
    (o p1 p2 : Bytes) (hb : ymd < 4294967296)
    (ho : o ∉ ((Table.get? (dataTable s) ymd).getD []).map (fun e => e.1)) :
    (∃ ps, ((Table.get? (dataTable (add_photos_to_day
          (add_photos_to_day s ymd [(o, [p1])]).1 ymd [(o, [p2])]).1) ymd).getD
        []).filter (fun e => decide (e.1 = o)) = [(o, ps)] ∧
      ps.Nodup ∧ (∀ q, q ∈ ps ↔ q = p1 ∨ q = p2)) ∧
    Table.get? (chkDayTable (add_photos_to_day
        (add_photos_to_day s ymd [(o, [p1])]).1 ymd [(o, [p2])]).1) ymd
      = Table.get? (chkDayTable (add_photos_to_day s ymd [(o, [p1])]).1) ymd := by
  have inv1 : Inv (add_photos_to_day s ymd [(o, [p1])]).1 :=
    inv_add (inv_of_reachable hs) ymd [(o, [p1])] hb
  -- the first add appends (o, [p1]) and sorts
  have hm1 : mergedDay s ymd [(o, [p1])]
      = sortPhotos (((Table.get? (dataTable s) ymd).getD []) ++ [(o, [p1])]) := by
    unfold mergedDay
    rw [List.foldl_cons, List.foldl_nil,
      @merge_photo_fst_not_mem (o, [p1]) ((Table.get? (dataTable s) ymd).getD []) ho]
  have hP1get : Table.get? (dataTable (add_photos_to_day s ymd [(o, [p1])]).1) ymd
      = some (mergedDay s ymd [(o, [p1])]) := by
    rw [add_data_eq]
    exact Table.get?_insert_self _ _ _
  have hwf1 : PhotosWF (mergedDay s ymd [(o, [p1])]) := inv1.photos_wf ymd _ hP1get
  have hnod1 : ((mergedDay s ymd [(o, [p1])]).map (fun e => e.1)).Nodup :=
    photosWF_nodup_fst hwf1
  have hmem1 : (o, [p1]) ∈ mergedDay s ymd [(o, [p1])] := by
    rw [hm1]
    exact mem_sortPhotos.mpr (List.mem_append.mpr (Or.inr (List.mem_singleton.mpr rfl)))
  have ho1 : o ∈ (mergedDay s ymd [(o, [p1])]).map (fun e => e.1) :=
    List.mem_map.mpr ⟨(o, [p1]), hmem1, rfl⟩
  -- the second add updates the o entry in place
  have hm2 : mergedDay (add_photos_to_day s ymd [(o, [p1])]).1 ymd [(o, [p2])]
      = (mergedDay s ymd [(o, [p1])]).map (fun e => if e.1 = o then
          (e.1, e.2 ++ [p2].filter (fun p => decide (p ∉ e.2))) else e) := by
    unfold mergedDay
    rw [hP1get]
    simp only [Option.getD_some, List.foldl_cons, List.foldl_nil]
    rw [@merge_photo_eq_map (mergedDay s ymd [(o, [p1])]) (o, [p2]) hnod1 ho1]
    apply sortPhotos_of_wf
    exact photosWF_of_fst_eq map_fst_update hwf1
  have hfst2 : (mergedDay (add_photos_to_day s ymd [(o, [p1])]).1 ymd [(o, [p2])]).map
      (fun e => e.1) = (mergedDay s ymd [(o, [p1])]).map (fun e => e.1) := by
    rw [hm2]
    exact map_fst_update
  have hP2get : Table.get? (dataTable (add_photos_to_day
      (add_photos_to_day s ymd [(o, [p1])]).1 ymd [(o, [p2])]).1) ymd
      = some (mergedDay (add_photos_to_day s ymd [(o, [p1])]).1 ymd [(o, [p2])]) := by
    rw [add_data_eq]
    exact Table.get?_insert_self _ _ _
  constructor
  · -- exactly one entry for o with peer set {p1, p2}
    refine ⟨[p1] ++ [p2].filter (fun p => decide (p ∉ ([p1] : List Bytes))), ?_, ?_, ?_⟩
    · rw [hP2get]
      simp only [Option.getD_some]
      apply filter_fst_single
      · rw [hfst2]
        exact hnod1
      · rw [hm2]
        exact List.mem_map.mpr ⟨(o, [p1]), hmem1, by simp⟩
    · by_cases hp : p2 = p1
      · subst hp
        simp
      · have hfil : [p2].filter (fun p => decide (p ∉ ([p1] : List Bytes))) = [p2] := by
          simp [hp]
        rw [hfil]
        simp only [List.singleton_append]
        rw [List.nodup_cons]
        refine ⟨?_, List.nodup_singleton p2⟩
        simp only [List.mem_singleton]
        exact fun hc => hp hc.symm
    · intro q
      by_cases hp : p2 = p1
      · subst hp
        simp
      · have hfil : [p2].filter (fun p => decide (p ∉ ([p1] : List Bytes))) = [p2] := by
          simp [hp]
        rw [hfil]
        simp
  · -- unchanged day digest: the object-id stream is identical
    rw [add_chkDay_eq]
    unfold newDayTable
    rw [Table.get?_insert_self]
    have hCD1get : Table.get? (chkDayTable (add_photos_to_day s ymd [(o, [p1])]).1) ymd
        = some (calc_photos_checksum (mergedDay s ymd [(o, [p1])])) := by
      rw [add_chkDay_eq]
      unfold newDayTable
      exact Table.get?_insert_self _ _ _
    rw [hCD1get]
    unfold calc_photos_checksum
    rw [hfst2]

/-- C3 (witness): the peer-union property at a fresh storage. -/
theorem c3_peer_union_witness :
    Table.get? (chkDayTable (add_photos_to_day
        (add_photos_to_day emptyStorage 5 [([7], [[1]])]).1 5 [([7], [[2]])]).1) 5
      = Table.get? (chkDayTable
          (add_photos_to_day emptyStorage 5 [([7], [[1]])]).1) 5 := by
  have h := c3_peer_union emptyStorage Reachable.fresh 5 [7] [1] [2]
    (by decide) (by decide)
  exact h.2

/-! ## Claim C8: Merkle pruning -/

/-- When the year-tier digest lists coincide, the whole reconciliation
round is a no-op: no transfers, no month- or day-tier events, both
storages untouched. -/
theorem sync_with_peer_of_equal_years (a b : LocalStorage)
    (h : get_years_checksums a = get_years_checksums b) :
    sync_with_peer a b = ((a, b), []) := by
  unfold sync_with_peer
  rw [h, calc_diff_self]
  rfl

theorem transfer_days_trace_shape : ∀ (ymds : List Nat) (src dst : LocalStorage)
    (ev : SyncEvent), ev ∈ (transfer_days src dst ymds).2 →
    ∃ d ∈ ymds, ev = SyncEvent.dataQuery d ∨ ev = SyncEvent.proposeCall d := by
  intro ymds
  induction ymds with
  | nil =>
    intro src dst ev hev
    cases hev
  | cons x rest ih =>
    intro src dst ev hev
    unfold transfer_days at hev
    cases hg : get_photos src x with
    | some photos =>
      rw [hg] at hev
      simp only [List.mem_cons] at hev
      rcases hev with hev | hev | hev
      · exact ⟨x, List.mem_cons_self _ _, Or.inl hev⟩
      · exact ⟨x, List.mem_cons_self _ _, Or.inr hev⟩
      · obtain ⟨d, hd, hor⟩ := ih src (add_photos_to_day dst x photos).1 ev hev
        exact ⟨d, List.mem_cons_of_mem _ hd, hor⟩
    | none =>
      rw [hg] at hev
      simp only [List.mem_cons] at hev
      rcases hev with hev | hev
      · exact ⟨x, List.mem_cons_self _ _, Or.inl hev⟩
      · obtain ⟨d, hd, hor⟩ := ih src dst ev hev
        exact ⟨d, List.mem_cons_of_mem _ hd, hor⟩

theorem mem_existing_days_bounds {s : LocalStorage} {lo hi d : Nat}
    (h : d ∈ get_existing_days_in_range s lo hi) : lo ≤ d ∧ d ≤ hi := by
  rw [get_existing_eq] at h
  obtain ⟨p, hp, hpk⟩ := List.mem_map.mp h
  have := Table.mem_range.mp hp
  omega

theorem fill_gaps_trace_shape : ∀ (dates : List Nat) (src dst : LocalStorage)
    (f : Nat → Nat × Nat) (ev : SyncEvent), ev ∈ (fill_gaps src dst dates f).2 →
    (∃ x ∈ dates, ev = SyncEvent.existingDaysQuery (f x).1 (f x).2) ∨
    (∃ x ∈ dates, ∃ d, (f x).1 ≤ d ∧ d ≤ (f x).2 ∧
      (ev = SyncEvent.dataQuery d ∨ ev = SyncEvent.proposeCall d)) := by
  intro dates
  induction dates with
  | nil =>
    intro src dst f ev hev
    cases hev
  | cons x rest ih =>
    intro src dst f ev hev
    unfold fill_gaps at hev
    simp only [List.mem_cons, List.mem_append] at hev
    rcases hev with (hev | hev) | hev
    · exact Or.inl ⟨x, List.mem_cons_self _ _, hev⟩
    · obtain ⟨d, hd, hor⟩ := transfer_days_trace_shape _ _ _ _ hev
      have hbd := mem_existing_days_bounds hd
      exact Or.inr ⟨x, List.mem_cons_self _ _, d, hbd.1, hbd.2, hor⟩
    · rcases ih src _ f ev hev with ⟨x2, hx2, he⟩ | ⟨x2, hx2, d, h1, h2, hor⟩
      · exact Or.inl ⟨x2, List.mem_cons_of_mem _ hx2, he⟩
      · exact Or.inr ⟨x2, List.mem_cons_of_mem _ hx2, d, h1, h2, hor⟩

theorem mem_days_checksum_keys_bounds (s : LocalStorage) {ym : Nat} (hb : ym ≤ 42949672)
    {k : Nat} (h : k ∈ (get_days_checksum s ym).map (fun e => e.1)) :
    ym * 100 + 1 ≤ k ∧ k ≤ ym * 100 + 31 := by
  rw [get_days_eq, ymd_range_for_ym_fst hb, ymd_range_for_ym_snd hb] at h
  obtain ⟨p, hp, hpk⟩ := List.mem_map.mp h
  have := Table.mem_range.mp hp
  omega

theorem sync_month_trace_shape (ab : LocalStorage × LocalStorage) (ym : Nat)
    (hb : ym ≤ 42949672) (ev : SyncEvent) (hev : ev ∈ (sync_month ab ym).2) :
    ev = SyncEvent.daysQuery ym ∨
    ∃ d, d / 100 = ym ∧ (ev = SyncEvent.dataQuery d ∨ ev = SyncEvent.proposeCall d) := by
  unfold sync_month at hev
  simp only [List.mem_cons, List.mem_append] at hev
  have hkey : ∀ d, d ∈ (calc_diff (get_days_checksum ab.1 ym)
      (get_days_checksum ab.2 ym)).1 ++ (calc_diff (get_days_checksum ab.1 ym)
      (get_days_checksum ab.2 ym)).2.2 ∨
      d ∈ (calc_diff (get_days_checksum ab.1 ym) (get_days_checksum ab.2 ym)).2.1 ++
      (calc_diff (get_days_checksum ab.1 ym) (get_days_checksum ab.2 ym)).2.2 →
      d / 100 = ym := by
    intro d hd
    have hin : d ∈ (get_days_checksum ab.1 ym).map (fun e => e.1) ∨
        d ∈ (get_days_checksum ab.2 ym).map (fun e => e.1) := by
      rcases hd with hd | hd <;> rcases List.mem_append.mp hd with hd | hd
      · exact Or.inr ((calc_diff_sub _ _).1 d hd)
      · exact Or.inl ((calc_diff_sub _ _).2.2 d hd).1
      · exact Or.inl ((calc_diff_sub _ _).2.1 d hd)
      · exact Or.inl ((calc_diff_sub _ _).2.2 d hd).1
    rcases hin with hin | hin
    · have := mem_days_checksum_keys_bounds ab.1 hb hin
      omega
    · have := mem_days_checksum_keys_bounds ab.2 hb hin
      omega
  rcases hev with (hev | hev) | hev
  · exact Or.inl hev
  · obtain ⟨d, hd, hor⟩ := transfer_days_trace_shape _ _ _ _ hev
    exact Or.inr ⟨d, hkey d (Or.inl hd), hor⟩
  · obtain ⟨d, hd, hor⟩ := transfer_days_trace_shape _ _ _ _ hev
    exact Or.inr ⟨d, hkey d (Or.inr hd), hor⟩

theorem sync_months_trace_shape : ∀ (L : List Nat) (ab : LocalStorage × LocalStorage)
    (ev : SyncEvent), (∀ ym ∈ L, ym ≤ 42949672) → ev ∈ (sync_months ab L).2 →
    ∃ ym ∈ L, ev = SyncEvent.daysQuery ym ∨
      ∃ d, d / 100 = ym ∧ (ev = SyncEvent.dataQuery d ∨ ev = SyncEvent.proposeCall d) := by
  intro L
  induction L with
  | nil =>
    intro ab ev _ hev
    cases hev
  | cons ym rest ih =>
    intro ab ev hbs hev
    unfold sync_months at hev
    rcases List.mem_append.mp hev with hev | hev
    · have := sync_month_trace_shape ab ym (hbs ym (List.mem_cons_self _ _)) ev hev
      exact ⟨ym, List.mem_cons_self _ _, this⟩
    · obtain ⟨ym2, hym2, hout⟩ := ih _ ev
        (fun x hx => hbs x (List.mem_cons_of_mem _ hx)) hev
      exact ⟨ym2, List.mem_cons_of_mem _ hym2, hout⟩

/-- C8: (first part) if two peers have entrywise equal year checksum
lists, the reconciliation round performs no month-tier or day-tier
queries and no data transfer at all: the event trace is empty, no propose
call is made, and both storages are returned unchanged. (Second part,
month tier) during the processing of a differing year, a month key whose
digest matches on both sides (month lists sorted with `u32`-derived keys,
as for real peers) triggers no day-tier query and no propose call for any
day of that month. -/
theorem c8_merkle_pruning :
    (∀ a b : LocalStorage, get_years_checksums a = get_years_checksums b →
      sync_with_peer a b = ((a, b), [])) ∧
    (∀ (a b : LocalStorage) (y ym : Nat) (c : Checksum),
      Table.SortedKeys (get_months_checksum a y) →
      Table.SortedKeys (get_months_checksum b y) →
      (∀ k ∈ (get_months_checksum a y).map (fun e => e.1), k ≤ 42949672) →
      (∀ k ∈ (get_months_checksum b y).map (fun e => e.1), k ≤ 42949672) →
      (ym, c) ∈ get_months_checksum a y →
      (ym, c) ∈ get_months_checksum b y →
      SyncEvent.daysQuery ym ∉ (sync_year (a, b) y).2 ∧
      (∀ d, SyncEvent.proposeCall d ∈ (sync_year (a, b) y).2 → d / 100 ≠ ym)) := by
  constructor
  · exact sync_with_peer_of_equal_years
  · intro a b y ym c hsA hsB hbA hbB hmA hmB
    have hymA : ym ∈ (get_months_checksum a y).map (fun e => e.1) :=
      List.mem_map.mpr ⟨(ym, c), hmA, rfl⟩
    have hymB : ym ∈ (get_months_checksum b y).map (fun e => e.1) :=
      List.mem_map.mpr ⟨(ym, c), hmB, rfl⟩
    have hymb : ym ≤ 42949672 := hbA ym hymA
    have hmol : ym ∉ (calc_diff (get_months_checksum a y)
        (get_months_checksum b y)).1 := by
      intro hc
      exact ((calc_diff_mem_mol _ _ hsA hsB ym).mp hc).2 hymA
    have hmor : ym ∉ (calc_diff (get_months_checksum a y)
        (get_months_checksum b y)).2.1 := by
      intro hc
      exact ((calc_diff_mem_mor _ _ hsA hsB ym).mp hc).2 hymB
    have hdif : ym ∉ (calc_diff (get_months_checksum a y)
        (get_months_checksum b y)).2.2 := by
      intro hc
      obtain ⟨c1, c2, hc1, hc2, hne⟩ := (calc_diff_mem_diff _ _ hsA hsB ym).mp hc
      rw [Table.get?_of_mem _ hsA ym c hmA] at hc1
      rw [Table.get?_of_mem _ hsB ym c hmB] at hc2
      rw [← Option.some.inj hc1, ← Option.some.inj hc2] at hne
      exact hne rfl
    -- events of the two month-gap fills land in months of the diff lists
    have hfill : ∀ (src dst : LocalStorage) (L : List Nat) (ev : SyncEvent),
        (∀ x ∈ L, x ≤ 42949672) → (ym ∉ L) →
        ev ∈ (fill_gaps src dst L ymd_interval_for_ym).2 →
        ev ≠ SyncEvent.daysQuery ym ∧
        ∀ d, ev = SyncEvent.proposeCall d → d / 100 ≠ ym := by
      intro src dst L ev hLb hLym hev
      rcases fill_gaps_trace_shape L src dst ymd_interval_for_ym ev hev with
        ⟨x, _, he⟩ | ⟨x, hx, d, h1, h2, hor⟩
      · constructor
        · rw [he]
          exact fun hc => SyncEvent.noConfusion hc
        · intro d hc
          rw [he] at hc
          exact absurd hc (fun hcc => SyncEvent.noConfusion hcc)
      · have hxb : x ≤ 42949672 := hLb x hx
        rw [ymd_interval_for_ym_fst hxb] at h1
        rw [ymd_interval_for_ym_snd hxb] at h2
        have hdx : d / 100 = x := by omega
        constructor
        · rcases hor with he | he <;> rw [he] <;>
            exact fun hc => SyncEvent.noConfusion hc
        · intro d2 hc
          rcases hor with he | he
          · rw [he] at hc
            exact absurd hc (fun hcc => SyncEvent.noConfusion hcc)
          · rw [he] at hc
            have : d2 = d := SyncEvent.proposeCall.inj hc.symm
            rw [this, hdx]
            intro hc2
            rw [hc2] at hx
            exact hLym hx
    have hmolb : ∀ x ∈ (calc_diff (get_months_checksum a y)
        (get_months_checksum b y)).1, x ≤ 42949672 :=
      fun x hx => hbB x ((calc_diff_sub _ _).1 x hx)
    have hmorb : ∀ x ∈ (calc_diff (get_months_checksum a y)
        (get_months_checksum b y)).2.1, x ≤ 42949672 :=
      fun x hx => hbA x ((calc_diff_sub _ _).2.1 x hx)
    have hdifb : ∀ x ∈ (calc_diff (get_months_checksum a y)
        (get_months_checksum b y)).2.2, x ≤ 42949672 :=
      fun x hx => hbA x ((calc_diff_sub _ _).2.2 x hx).1
    constructor
    · intro hev
      unfold sync_year at hev
      simp only [List.mem_cons, List.mem_append] at hev
      rcases hev with ((hev | hev) | hev) | hev
      · exact SyncEvent.noConfusion hev
      · exact (hfill _ _ _ _ hmolb hmol hev).1 rfl
      · exact (hfill _ _ _ _ hmorb hmor hev).1 rfl
      · obtain ⟨ym2, hym2, hout⟩ := sync_months_trace_shape _ _ _ hdifb hev
        rcases hout with hout | ⟨d, _, hor⟩
        · have : ym = ym2 := SyncEvent.daysQuery.inj hout
          rw [this] at hdif
          exact hdif hym2
        · rcases hor with he | he <;> exact SyncEvent.noConfusion he
    · intro d hev
      unfold sync_year at hev
      simp only [List.mem_cons, List.mem_append] at hev
      rcases hev with ((hev | hev) | hev) | hev
      · exact absurd hev (fun hc => SyncEvent.noConfusion hc)
      · exact (hfill _ _ _ _ hmolb hmol hev).2 d rfl
      · exact (hfill _ _ _ _ hmorb hmor hev).2 d rfl
      · obtain ⟨ym2, hym2, hout⟩ := sync_months_trace_shape _ _ _ hdifb hev
        rcases hout with hout | ⟨d2, hd2, hor⟩
        · exact absurd hout (fun hc => SyncEvent.noConfusion hc)
        · rcases hor with he | he
          · exact absurd he (fun hc => SyncEvent.noConfusion hc)
          · have : d = d2 := SyncEvent.proposeCall.inj he
            rw [this, hd2]
            intro hc
            rw [hc] at hym2
            exact hdif hym2

/-- C8 (witness): part two applied to two concrete nodes sharing the July
2021 digest while differing on August 2021, and part one applied to two
concrete nodes with identical year lists. -/
theorem c8_merkle_pruning_witness :
    SyncEvent.daysQuery 202107 ∉ (sync_year
      ((add_photos_to_day emptyStorage 20210711 [([0], [[0]])]).1,
       (add_photos_to_day (add_photos_to_day emptyStorage 20210711 [([0], [[0]])]).1
         20210812 [([1], [[0]])]).1) 2021).2 ∧
    sync_with_peer (add_photos_to_day emptyStorage 20220101 [([5], [[9]])]).1
        (add_photos_to_day emptyStorage 20220102 [([5], [[9]])]).1
      = (((add_photos_to_day emptyStorage 20220101 [([5], [[9]])]).1,
          (add_photos_to_day emptyStorage 20220102 [([5], [[9]])]).1), []) := by
  constructor
  · have hA : get_months_checksum
        (add_photos_to_day emptyStorage 20210711 [([0], [[0]])]).1 2021
        = [(202107, Checksum.ofSums [Checksum.ofBytes [0]])] := by decide
    have hB : get_months_checksum (add_photos_to_day (add_photos_to_day emptyStorage
        20210711 [([0], [[0]])]).1 20210812 [([1], [[0]])]).1 2021
        = [(202107, Checksum.ofSums [Checksum.ofBytes [0]]),
           (202108, Checksum.ofSums [Checksum.ofBytes [1]])] := by decide
    have h := c8_merkle_pruning.2
      (add_photos_to_day emptyStorage 20210711 [([0], [[0]])]).1
      (add_photos_to_day (add_photos_to_day emptyStorage 20210711 [([0], [[0]])]).1
        20210812 [([1], [[0]])]).1
      2021 202107 (Checksum.ofSums [Checksum.ofBytes [0]])
      (by rw [hA]; unfold Table.SortedKeys; simp)
      (by rw [hB]; unfold Table.SortedKeys; simp)
      (by rw [hA]; intro k hk; simp at hk; omega)
      (by rw [hB]; intro k hk; simp at hk; rcases hk with hk | hk <;> omega)
      (by rw [hA]; exact List.mem_singleton.mpr rfl)
      (by rw [hB]; exact List.mem_cons_self _ _)
    exact h.1
  · exact c8_merkle_pruning.1 _ _ (by decide)

/-! ## Claim C1: sync convergence -/

theorem Table.keys_nodup {α : Type} {t : Table α} (h : Table.SortedKeys t) :
    (t.map (fun e => e.1)).Nodup := by
  rw [Table.SortedKeys, List.chain'_iff_pairwise] at h
  have h2 : List.Pairwise (fun a b : Nat => a < b) (t.map (fun e => e.1)) :=
    List.pairwise_map.mpr h
  exact List.Pairwise.imp (fun hab => by omega) h2

theorem reachable_transfer_days {src : LocalStorage} : ∀ (days : List Nat)
    (dst : LocalStorage), Reachable dst → (∀ d ∈ days, d < 4294967296) →
    Reachable (transfer_days src dst days).1 := by
  intro days
  induction days with
  | nil =>
    intro dst h _
    exact h
  | cons x rest ih =>
    intro dst h hb
    unfold transfer_days
    cases hg : get_photos src x with
    | some photos =>
      exact ih _ (Reachable.step dst x photos h (hb x (List.mem_cons_self _ _)))
        (fun d hd => hb d (List.mem_cons_of_mem _ hd))
    | none =>
      exact ih _ h (fun d hd => hb d (List.mem_cons_of_mem _ hd))

theorem mem_existing_days_chkDay {s : LocalStorage} {lo hi d : Nat}
    (h : d ∈ get_existing_days_in_range s lo hi) :
    d ∈ (chkDayTable s).map (fun e => e.1) := by
  rw [get_existing_eq] at h
  obtain ⟨p, hp, hpk⟩ := List.mem_map.mp h
  exact List.mem_map.mpr ⟨p, (Table.mem_range.mp hp).1, hpk⟩

theorem reachable_fill_gaps {src : LocalStorage}
    (hb : ∀ k ∈ (chkDayTable src).map (fun e => e.1), k < 4294967296) :
    ∀ (dates : List Nat) (dst : LocalStorage) (f : Nat → Nat × Nat), Reachable dst →
    Reachable (fill_gaps src dst dates f).1 := by
  intro dates
  induction dates with
  | nil =>
    intro dst f h
    exact h
  | cons x rest ih =>
    intro dst f h
    unfold fill_gaps
    exact ih _ f (reachable_transfer_days _ dst h
      (fun d hd => hb d (mem_existing_days_chkDay hd)))

theorem inv_chkDay_key_lt {s : LocalStorage} (hs : Inv s) :
    ∀ k ∈ (chkDayTable s).map (fun e => e.1), k < 4294967296 := by
  intro k hk
  have h1 : (Table.get? (chkDayTable s) k).isSome = true :=
    (Table.get?_isSome_iff _ _).mpr hk
  rw [hs.day_keys k] at h1
  exact inv_data_key_lt hs h1

/-- Two storages satisfying the invariant with identical data tables have
identical digest tables at all three tiers. -/
theorem inv_tables_eq_of_data_eq {s1 s2 : LocalStorage} (h1 : Inv s1) (h2 : Inv s2)
    (hd : dataTable s1 = dataTable s2) :
    chkDayTable s1 = chkDayTable s2 ∧ chkMonthTable s1 = chkMonthTable s2 ∧
    chkYearTable s1 = chkYearTable s2 := by
  have hCD : chkDayTable s1 = chkDayTable s2 := by
    apply Table.sorted_ext _ _ h1.day_sorted h2.day_sorted
    intro k
    cases hk : Table.get? (dataTable s2) k with
    | some L =>
      rw [h1.day_val k L (hd ▸ hk), h2.day_val k L hk]
    | none =>
      have e1 : (Table.get? (chkDayTable s1) k).isSome = false := by
        rw [h1.day_keys k, hd, hk]
        rfl
      have e2 : (Table.get? (chkDayTable s2) k).isSome = false := by
        rw [h2.day_keys k, hk]
        rfl
      have n1 : Table.get? (chkDayTable s1) k = none :=
        Option.not_isSome_iff_eq_none.mp (by rw [e1]; exact Bool.false_ne_true)
      have n2 : Table.get? (chkDayTable s2) k = none :=
        Option.not_isSome_iff_eq_none.mp (by rw [e2]; exact Bool.false_ne_true)
      rw [n1, n2]
  have hCM : chkMonthTable s1 = chkMonthTable s2 := by
    apply Table.sorted_ext _ _ h1.month_sorted h2.month_sorted
    intro k
    have hiff : (Table.get? (chkMonthTable s1) k).isSome = true ↔
        (Table.get? (chkMonthTable s2) k).isSome = true := by
      rw [h1.month_keys k, h2.month_keys k, hd]
    cases hk1 : Table.get? (chkMonthTable s1) k with
    | some c =>
      have h2some : (Table.get? (chkMonthTable s2) k).isSome = true := by
        apply hiff.mp
        rw [hk1]
        rfl
      obtain ⟨c2, hc2⟩ := Option.isSome_iff_exists.mp h2some
      rw [hc2]
      rw [h1.month_val k c hk1, h2.month_val k c2 hc2, hCD]
    | none =>
      cases hk2 : Table.get? (chkMonthTable s2) k with
      | some c2 =>
        have : (Table.get? (chkMonthTable s1) k).isSome = true := by
          apply hiff.mpr
          rw [hk2]
          rfl
        rw [hk1] at this
        cases this
      | none => rfl
  refine ⟨hCD, hCM, ?_⟩
  apply Table.sorted_ext _ _ h1.year_sorted h2.year_sorted
  intro k
  have hiff : (Table.get? (chkYearTable s1) k).isSome = true ↔
      (Table.get? (chkYearTable s2) k).isSome = true := by
    rw [h1.year_keys k, h2.year_keys k, hd]
  cases hk1 : Table.get? (chkYearTable s1) k with
  | some c =>
    have h2some : (Table.get? (chkYearTable s2) k).isSome = true := by
      apply hiff.mp
      rw [hk1]
      rfl
    obtain ⟨c2, hc2⟩ := Option.isSome_iff_exists.mp h2some
    rw [hc2]
    rw [h1.year_val k c hk1, h2.year_val k c2 hc2, hCM]
  | none =>
    cases hk2 : Table.get? (chkYearTable s2) k with
    | some c2 =>
      have : (Table.get? (chkYearTable s1) k).isSome = true := by
        apply hiff.mpr
        rw [hk2]
        rfl
      rw [hk1] at this
      cases this
    | none => rfl

/-- The day keys of a storage are canonically encoded dates: the month
field is 1..12 and the day field 1..31 (as the `e.g. May 2015 is encoded
as 201505` convention of `opaque_date.rs` prescribes). -/
def ValidKeys (s : LocalStorage) : Prop :=
  ∀ k, (Table.get? (dataTable s) k).isSome = true →
    1 ≤ k % 100 ∧ k % 100 ≤ 31 ∧ 1 ≤ k / 100 % 100 ∧ k / 100 % 100 ≤ 12

theorem sync_with_peer_empty_fst (A : LocalStorage) :
    (sync_with_peer A emptyStorage).1 =
      (A, (fill_gaps A emptyStorage ((get_years_checksums A).map (fun e => e.1))
        ymd_interval_for_y).1) := by
  simp only [sync_with_peer]
  rw [show get_years_checksums emptyStorage = ([] : Table Checksum) from rfl,
    calc_diff_nil_right]
  rfl

theorem mem_map_fst_range {α : Type} {t : Table α} {lo hi k : Nat} :
    k ∈ (Table.range t lo hi).map (fun e => e.1) ↔
      k ∈ t.map (fun e => e.1) ∧ lo ≤ k ∧ k ≤ hi := by
  constructor
  · intro h
    obtain ⟨e, he, hk⟩ := List.mem_map.mp h
    obtain ⟨h1, h2, h3⟩ := Table.mem_range.mp he
    exact ⟨List.mem_map.mpr ⟨e, h1, hk⟩, hk ▸ h2, hk ▸ h3⟩
  · rintro ⟨h1, h2, h3⟩
    obtain ⟨e, he, hk⟩ := List.mem_map.mp h1
    exact List.mem_map.mpr ⟨e, Table.mem_range.mpr ⟨he, hk.symm ▸ h2, hk.symm ▸ h3⟩, hk⟩

/-- With canonically encoded keys, the existing days in the
`ymd_interval_for_y y` interval are exactly the data keys of year `y`. -/
theorem mem_existing_interval_iff {A : LocalStorage} (hA : Inv A) (hV : ValidKeys A)
    {y : Nat} (hy : y ≤ 429496) {d : Nat} :
    d ∈ get_existing_days_in_range A (ymd_interval_for_y y).1 (ymd_interval_for_y y).2 ↔
      (Table.get? (dataTable A) d).isSome = true ∧ d / 10000 = y := by
  rw [get_existing_eq, mem_map_fst_range, ymd_interval_for_y_fst hy,
    ymd_interval_for_y_snd hy]
  constructor
  · rintro ⟨h1, h2, h3⟩
    have hds : (Table.get? (chkDayTable A) d).isSome = true :=
      (Table.get?_isSome_iff _ _).mpr h1
    rw [hA.day_keys d] at hds
    exact ⟨hds, by omega⟩
  · rintro ⟨h1, h2⟩
    have hds : (Table.get? (chkDayTable A) d).isSome = true := by
      rw [hA.day_keys d]
      exact h1
    obtain ⟨hv1, hv2, hv3, hv4⟩ := hV d h1
    refine ⟨(Table.get?_isSome_iff _ _).mp hds, ?_, ?_⟩ <;> omega

/-- Pointwise effect of `transfer_days` on the destination data table, when
every transferred day exists (well-formed) on the source and is fresh on
the destination. -/
theorem transfer_days_data_get {src : LocalStorage} : ∀ (days : List Nat)
    (dst : LocalStorage),
    (∀ d ∈ days, ∃ L, get_photos src d = some L ∧ PhotosWF L) →
    (∀ d ∈ days, Table.get? (dataTable dst) d = none) →
    days.Nodup →
    ∀ k, Table.get? (dataTable (transfer_days src dst days).1) k =
      if k ∈ days then get_photos src k else Table.get? (dataTable dst) k := by
  intro days
  induction days with
  | nil =>
    intro dst _ _ _ k
    simp [transfer_days]
  | cons x rest ih =>
    intro dst hsrc hdst hnd k
    obtain ⟨L, hL, hwf⟩ := hsrc x (List.mem_cons_self _ _)
    have hstep : (transfer_days src dst (x :: rest)).1
        = (transfer_days src (add_photos_to_day dst x L).1 rest).1 := by
      conv_lhs => rw [transfer_days, hL]
    rw [hstep]
    have hdst' : ∀ d ∈ rest, Table.get? (dataTable (add_photos_to_day dst x L).1) d
        = none := by
      intro d hd
      rw [add_data_eq]
      have hne : d ≠ x := by
        intro he
        exact (List.nodup_cons.mp hnd).1 (he ▸ hd)
      rw [Table.get?_insert_ne _ _ _ _ hne]
      exact hdst d (List.mem_cons_of_mem _ hd)
    have hrec := ih (add_photos_to_day dst x L).1
      (fun d hd => hsrc d (List.mem_cons_of_mem _ hd)) hdst' (List.nodup_cons.mp hnd).2 k
    rw [hrec]
    by_cases hk : k ∈ rest
    · rw [if_pos hk, if_pos (List.mem_cons_of_mem _ hk)]
    · rw [if_neg hk]
      by_cases hkx : k = x
      · subst hkx
        have hmd : mergedDay dst k L = L := by
          unfold mergedDay
          rw [hdst k (List.mem_cons_self _ _), Option.getD_none,
            foldl_merge_append L [] (photosWF_nodup_fst hwf) (by simp),
            List.nil_append]
          exact sortPhotos_of_wf hwf
        rw [if_pos (List.mem_cons_self _ _), add_data_eq, hmd,
          Table.get?_insert_self, hL]
      · have hknotin : k ∉ x :: rest := by
          intro h
          rcases List.mem_cons.mp h with h | h
          · exact hkx h
          · exact hk h
        rw [if_neg hknotin, add_data_eq, Table.get?_insert_ne _ _ _ _ hkx]

/-- Pointwise effect of transferring all existing days of year `y` from a
valid storage into a destination holding no day of year `y`. -/
theorem transfer_year_days_get {A : LocalStorage} (hA : Inv A) (hV : ValidKeys A)
    {y : Nat} (hy : y ≤ 429496) (dst : LocalStorage)
    (hdst : ∀ d, (Table.get? (dataTable dst) d).isSome = true → d / 10000 ≠ y) :
    ∀ k, Table.get? (dataTable (transfer_days A dst (get_existing_days_in_range A
        (ymd_interval_for_y y).1 (ymd_interval_for_y y).2)).1) k =
      if (Table.get? (dataTable A) k).isSome = true ∧ k / 10000 = y
      then Table.get? (dataTable A) k else Table.get? (dataTable dst) k := by
  have hnd_days : (get_existing_days_in_range A (ymd_interval_for_y y).1
      (ymd_interval_for_y y).2).Nodup := by
    rw [get_existing_eq]
    exact Table.keys_nodup (Table.sortedKeys_range hA.day_sorted _ _)
  have hsrc_days : ∀ d ∈ get_existing_days_in_range A (ymd_interval_for_y y).1
      (ymd_interval_for_y y).2, ∃ L, get_photos A d = some L ∧ PhotosWF L := by
    intro d hd
    obtain ⟨h1, _⟩ := (mem_existing_interval_iff hA hV hy).mp hd
    obtain ⟨L, hL⟩ := Option.isSome_iff_exists.mp h1
    exact ⟨L, by rw [get_photos_eq]; exact hL, hA.photos_wf d L hL⟩
  have hdst_days : ∀ d ∈ get_existing_days_in_range A (ymd_interval_for_y y).1
      (ymd_interval_for_y y).2, Table.get? (dataTable dst) d = none := by
    intro d hd
    obtain ⟨_, h2⟩ := (mem_existing_interval_iff hA hV hy).mp hd
    cases hh : Table.get? (dataTable dst) d with
    | none => rfl
    | some L => exact absurd h2 (hdst d (by rw [hh]; rfl))
  intro k
  rw [transfer_days_data_get _ dst hsrc_days hdst_days hnd_days k]
  by_cases hk : k ∈ get_existing_days_in_range A (ymd_interval_for_y y).1
      (ymd_interval_for_y y).2
  · obtain ⟨h1, h2⟩ := (mem_existing_interval_iff hA hV hy).mp hk
    rw [if_pos hk, if_pos ⟨h1, h2⟩, get_photos_eq]
  · rw [if_neg hk, if_neg (fun hcon =>
      hk ((mem_existing_interval_iff hA hV hy).mpr hcon))]

/-- Pointwise effect of the year-tier `fill_gaps` loop on the destination
data table: it copies every source day whose year is in the list. -/
theorem fill_gaps_years_data_get {A : LocalStorage} (hA : Inv A) (hV : ValidKeys A) :
    ∀ (ys : List Nat) (dst : LocalStorage),
    (∀ y ∈ ys, y ≤ 429496) →
    (∀ d, (Table.get? (dataTable dst) d).isSome = true →
       (Table.get? (dataTable A) d).isSome = true ∧ d / 10000 ∉ ys) →
    ys.Nodup →
    ∀ k, Table.get? (dataTable (fill_gaps A dst ys ymd_interval_for_y).1) k =
      if (Table.get? (dataTable A) k).isSome = true ∧ k / 10000 ∈ ys
      then Table.get? (dataTable A) k else Table.get? (dataTable dst) k := by
  intro ys
  induction ys with
  | nil =>
    intro dst _ _ _ k
    simp [fill_gaps]
  | cons y rest ih =>
    intro dst hys hdst hnd k
    have hy : y ≤ 429496 := hys y (List.mem_cons_self _ _)
    have hstep : (fill_gaps A dst (y :: rest) ymd_interval_for_y).1
        = (fill_gaps A (transfer_days A dst (get_existing_days_in_range A
            (ymd_interval_for_y y).1 (ymd_interval_for_y y).2)).1 rest
            ymd_interval_for_y).1 := rfl
    have htd := transfer_year_days_get hA hV hy dst (fun d hd => by
      intro he
      exact (hdst d hd).2 (he ▸ List.mem_cons_self y rest))
    have hdst' : ∀ d, (Table.get? (dataTable (transfer_days A dst
        (get_existing_days_in_range A (ymd_interval_for_y y).1
          (ymd_interval_for_y y).2)).1) d).isSome = true →
        (Table.get? (dataTable A) d).isSome = true ∧ d / 10000 ∉ rest := by
      intro d hd
      rw [htd d] at hd
      by_cases hc : (Table.get? (dataTable A) d).isSome = true ∧ d / 10000 = y
      · rw [if_pos hc] at hd
        refine ⟨hc.1, ?_⟩
        rw [hc.2]
        exact (List.nodup_cons.mp hnd).1
      · rw [if_neg hc] at hd
        obtain ⟨h1, h2⟩ := hdst d hd
        exact ⟨h1, fun hr => h2 (List.mem_cons_of_mem _ hr)⟩
    have hih := ih (transfer_days A dst (get_existing_days_in_range A
        (ymd_interval_for_y y).1 (ymd_interval_for_y y).2)).1
      (fun y2 hy2 => hys y2 (List.mem_cons_of_mem _ hy2)) hdst'
      (List.nodup_cons.mp hnd).2 k
    rw [hstep, hih, htd k]
    by_cases h1 : (Table.get? (dataTable A) k).isSome = true ∧ k / 10000 ∈ rest
    · rw [if_pos h1, if_pos ⟨h1.1, List.mem_cons_of_mem _ h1.2⟩]
    · rw [if_neg h1]
      by_cases h2 : (Table.get? (dataTable A) k).isSome = true ∧ k / 10000 = y
      · rw [if_pos h2, if_pos ⟨h2.1, by rw [h2.2]; exact List.mem_cons_self _ _⟩]
      · rw [if_neg h2]
        have h5 : ¬((Table.get? (dataTable A) k).isSome = true ∧
            k / 10000 ∈ y :: rest) := by
          intro hcon
          rcases List.mem_cons.mp hcon.2 with he | he
          · exact h2 ⟨hcon.1, he⟩
          · exact h1 ⟨hcon.1, he⟩
        rw [if_neg h5]

/-- After one sync round against a freshly created peer, the peer's data
table equals that of a reachable, canonically keyed local storage. -/
theorem sync_empty_data_eq {A : LocalStorage} (hR : Reachable A) (hV : ValidKeys A) :
    dataTable (sync_with_peer A emptyStorage).1.2 = dataTable A := by
  have hA : Inv A := inv_of_reachable hR
  rw [sync_with_peer_empty_fst]
  have hys_le : ∀ y ∈ (get_years_checksums A).map (fun e => e.1), y ≤ 429496 := by
    intro y hy
    rw [get_years_eq] at hy
    have h1 : (Table.get? (chkYearTable A) y).isSome = true :=
      (Table.get?_isSome_iff _ _).mpr hy
    obtain ⟨d, hd1, hd2⟩ := (hA.year_keys y).mp h1
    have := inv_data_key_lt hA hd1
    omega
  have hnd : ((get_years_checksums A).map (fun e => e.1)).Nodup := by
    rw [get_years_eq]
    exact Table.keys_nodup hA.year_sorted
  have hfg := fill_gaps_years_data_get hA hV ((get_years_checksums A).map (fun e => e.1))
    emptyStorage hys_le
    (fun d hd => absurd hd (by simp [emptyStorage, dataTable, Table.get?])) hnd
  have hreach : Reachable (fill_gaps A emptyStorage
      ((get_years_checksums A).map (fun e => e.1)) ymd_interval_for_y).1 :=
    reachable_fill_gaps (inv_chkDay_key_lt hA) _ _ _ Reachable.fresh
  have hB : Inv (fill_gaps A emptyStorage
      ((get_years_checksums A).map (fun e => e.1)) ymd_interval_for_y).1 :=
    inv_of_reachable hreach
  apply Table.sorted_ext _ _ hB.data_sorted hA.data_sorted
  intro k
  rw [hfg k]
  by_cases hk : (Table.get? (dataTable A) k).isSome = true
  · have hmem : k / 10000 ∈ (get_years_checksums A).map (fun e => e.1) := by
      rw [get_years_eq, ← Table.get?_isSome_iff]
      exact (hA.year_keys (k / 10000)).mpr ⟨k, hk, rfl⟩
    rw [if_pos ⟨hk, hmem⟩]
  · rw [if_neg (fun hcon => hk hcon.1), Option.not_isSome_iff_eq_none.mp hk]
    exact rfl

/-- C1: counterexample to unconditional convergence. Two non-empty
storages that disagree at day 20220101 present identical year digest
lists (the digests hash only values, never keys), so the sync round is a
no-op and the data tables still differ at 20220101 afterwards. -/
theorem c1_sync_convergence_counterexample :
    get_photos (sync_with_peer (add_photos_to_day emptyStorage 20220101 [([0], [[9]])]).1
        (add_photos_to_day emptyStorage 20220102 [([0], [[9]])]).1).1.1 20220101
      ≠ get_photos (sync_with_peer (add_photos_to_day emptyStorage 20220101
          [([0], [[9]])]).1
        (add_photos_to_day emptyStorage 20220102 [([0], [[9]])]).1).1.2 20220101 := by
  rw [sync_with_peer_of_equal_years _ _ (by decide)]
  decide

/-- C1 (amended): if the sole peer is a freshly created (empty) storage
and the local storage is reachable by `add_photos_to_day` calls whose day
keys are canonically encoded dates, then `sync_with_peers` takes the
unlocked path, runs one `sync_with_peer` round that leaves the local
storage untouched, and afterwards both storages agree on the data of
every day and on all three checksum tables. -/
theorem c1_sync_convergence_amended {A : LocalStorage}
    (hR : Reachable A) (hV : ValidKeys A) :
    sync_with_peers false A emptyStorage = Except.ok (sync_with_peer A emptyStorage) ∧
    (sync_with_peer A emptyStorage).1.1 = A ∧
    (∀ ymd, get_photos (sync_with_peer A emptyStorage).1.1 ymd
        = get_photos (sync_with_peer A emptyStorage).1.2 ymd) ∧
    chkDayTable (sync_with_peer A emptyStorage).1.1
        = chkDayTable (sync_with_peer A emptyStorage).1.2 ∧
    chkMonthTable (sync_with_peer A emptyStorage).1.1
        = chkMonthTable (sync_with_peer A emptyStorage).1.2 ∧
    chkYearTable (sync_with_peer A emptyStorage).1.1
        = chkYearTable (sync_with_peer A emptyStorage).1.2 := by
  have hA : Inv A := inv_of_reachable hR
  have hfst : (sync_with_peer A emptyStorage).1.1 = A := by
    rw [sync_with_peer_empty_fst]
  have hdata : dataTable (sync_with_peer A emptyStorage).1.2 = dataTable A :=
    sync_empty_data_eq hR hV
  have hreach2 : Reachable (sync_with_peer A emptyStorage).1.2 := by
    rw [sync_with_peer_empty_fst]
    exact reachable_fill_gaps (inv_chkDay_key_lt hA) _ _ _ Reachable.fresh
  have hB : Inv (sync_with_peer A emptyStorage).1.2 := inv_of_reachable hreach2
  have htabs := inv_tables_eq_of_data_eq hA hB hdata.symm
  refine ⟨rfl, hfst, ?_, ?_, ?_, ?_⟩
  · intro ymd
    rw [get_photos_eq, get_photos_eq, hfst, hdata]
  · rw [hfst]
    exact htabs.1
  · rw [hfst]
    exact htabs.2.1
  · rw [hfst]
    exact htabs.2.2

theorem c1_sync_convergence_amended_witness :
    chkYearTable (sync_with_peer (add_photos_to_day emptyStorage 20220101
        [([0], [[9]])]).1 emptyStorage).1.1
      = chkYearTable (sync_with_peer (add_photos_to_day emptyStorage 20220101
        [([0], [[9]])]).1 emptyStorage).1.2 :=
  (c1_sync_convergence_amended
    (Reachable.step emptyStorage 20220101 [([0], [[9]])] Reachable.fresh (by decide))
    (by
      intro k hk
      have hmem : k ∈ (dataTable (add_photos_to_day emptyStorage 20220101
          [([0], [[9]])]).1).map (fun e => e.1) := (Table.get?_isSome_iff _ _).mp hk
      have hke : k = 20220101 := by
        rw [show (dataTable (add_photos_to_day emptyStorage 20220101
            [([0], [[9]])]).1).map (fun e => e.1) = [20220101] from rfl] at hmem
        simpa using hmem
      subst hke
      decide)).2.2.2.2.2

end PhotoSync
